import Mathlib

/-!
Verification of the pipeline execution engine of `scrapar`
(`src/core/loop-controller.ts`): the dependency resolver and step runner
(`ScrapeRunnerImpl`), the resumable state store (`StepLogger`) and the
bounded iteration controller (`LoopController`).

Modelling conventions, fixed once for the whole development:

* JavaScript `Map`s are modelled as association lists (`alGet` / `alSet`),
  which reproduces the insertion-order iteration and update-in-place
  semantics of `Map.set` / `Map.get`.
* Opaque JavaScript values (step payloads, shared-context entries) are
  modelled as string maps (`PMap`); failure identifiers, which the source
  types as `number | string`, are modelled as `Int ⊕ String`.
* Wall-clock timestamps (`Date.now()` / `new Date().toISOString()`) are
  modelled as `Nat` values supplied by the caller (`now` parameters), or by
  the tick counter inside the iteration controller; only their relative
  order is ever observed by the source.
* Step bodies and lifecycle hooks are asynchronous effects in the source.
  Execution is strictly sequential (each call is awaited), so they are
  modelled as pure state transformers `Ctx → Except String Ctx`, and hook
  invocations are recorded in an explicit event trace (`Ev`).  Hook
  presence (`step.beforeStep` etc. being defined) is modelled by `Bool`
  flags; an absent hook contributes no trace event.
* The runner's `RunResult` timestamps (`startedAt`/`finishedAt`/
  `durationMs`) and the context's `runId`/`stepState`/`metadata` fields are
  not referenced by any verified property and are omitted from the model.
-/

/-- Association-list lookup, modelling `Map.get` (first binding wins; the
construction below keeps keys unique, as a JavaScript `Map` does). -/
def alGet {α : Type} (l : List (String × α)) (k : String) : Option α :=
  (l.find? (fun p => p.1 == k)).map (fun p => p.2)

/-- Association-list update, modelling `Map.set`: replace the first binding
of the key in place, else append a new binding at the end. -/
def alSet {α : Type} : List (String × α) → String → α → List (String × α)
  | [], k, v => [(k, v)]
  | (k', v') :: rest, k, v =>
    if k' == k then (k, v) :: rest else (k', v') :: alSet rest k v

/-- Opaque JSON-object values (`unknown` in the source) are modelled as
string-to-string maps. -/
abbrev PMap := List (String × String)

/-- Spread-merge `{...a, ...b}` of JavaScript objects: keys of `a` keep
their position, keys of `b` overwrite or append. -/
def objMerge {α : Type} (a b : List (String × α)) : List (String × α) :=
  b.foldl (fun acc p => alSet acc p.1 p.2) a

/-- Execution context (`ScrapeContextImpl`).  Only the mutable shared `data`
bag is observed by the verified properties; `data` values are opaque
objects (`PMap`). -/
structure Ctx where
  data : List (String × PMap)
deriving DecidableEq

/-- A pipeline step (`PipelineStep`): identity, declared dependencies, the
body as a pure state transformer, and presence flags for the optional
lifecycle hooks. -/
structure PipelineStep where
  id : String
  dependencies : List String := []
  run : Ctx → Except String Ctx
  hasBeforeStep : Bool := false
  hasAfterStep : Bool := false
  hasOnError : Bool := false

/-- Runner-level lifecycle hook presence flags (`RunnerLifecycle`). -/
structure RunnerLifecycle where
  hasBeforeStep : Bool := false
  hasAfterStep : Bool := false
  hasOnError : Bool := false
deriving DecidableEq

/-- Payload of a `StepErrorEvent`: the step (by id), the context's shared
data, the zero-based step index, the total step count, and the error. -/
structure StepErrorEvent where
  stepId : String
  ctxData : List (String × PMap)
  stepIndex : Nat
  totalSteps : Nat
  error : String
deriving DecidableEq

/-- Observable events of one run: hook invocations and step-body calls, in
invocation order.  `bodyRun` records the shared data of the context the
body receives. -/
inductive Ev where
  | runnerBefore (stepId : String)
  | stepBefore (stepId : String)
  | bodyRun (stepId : String) (data : List (String × PMap))
  | runnerAfter (stepId : String)
  | stepAfter (stepId : String)
  | runnerError (e : StepErrorEvent)
  | stepError (e : StepErrorEvent)
deriving DecidableEq

/-- Resolution failures (`ScrapeRunnerImpl.resolveDependencies`): a
dependency id absent from the supplied set (named together with the
dependent step id), or unresolved steps left by the cycle check. -/
inductive ResolveError where
  | missingDep (depId : String) (stepId : String)
  | circular (stepIds : List String)
deriving DecidableEq

/-- Failures of `run`/`resume`.  `stepFailed` carries the thrown error and
the `completedSteps`/`failedSteps` accumulators at the moment of the
throw (local variables in the source, recorded here as observations). -/
inductive RunErr where
  | resolve (e : ResolveError)
  | stepNotFound (stepId : String)
  | invalidStepIndex (idx : Int)
  | stepFailed (error : String) (completedSoFar failedSoFar : List String)

/-- Run result (`RunResult`); the timestamp fields are omitted (never
observed by a verified property). -/
structure RunResult where
  totalSteps : Nat
  completedSteps : List String
  failedSteps : List String

/-! ## Dependency resolver (`resolveDependencies`, lines 393-450) -/

/-- First loop of `resolveDependencies`: seed `stepMap`, `inDegree` and
`graph` from the supplied steps. -/
def buildMaps (steps : List PipelineStep) :
    List (String × PipelineStep) × List (String × Int) × List (String × List String) :=
  steps.foldl
    (fun acc step =>
      (alSet acc.1 step.id step, alSet acc.2.1 step.id 0, alSet acc.2.2 step.id []))
    ([], [], [])

/-- Inner loop of the edge-building pass: for one step `sid`, walk its
dependency list; a dependency absent from `stepMap` raises the
missing-dependency error, otherwise `graph.get(depId)?.push(step.id)` and
`inDegree.set(step.id, (inDegree.get(step.id) ?? 0) + 1)`. -/
def addStepEdges (stepMap : List (String × PipelineStep)) (sid : String) :
    List String → List (String × Int) → List (String × List String) →
    Except ResolveError (List (String × Int) × List (String × List String))
  | [], inDeg, graph => .ok (inDeg, graph)
  | depId :: rest, inDeg, graph =>
    if (alGet stepMap depId).isSome then
      let graph2 := match alGet graph depId with
        | some l => alSet graph depId (l ++ [sid])
        | none => graph
      let inDeg2 := alSet inDeg sid (((alGet inDeg sid).getD 0) + 1)
      addStepEdges stepMap sid rest inDeg2 graph2
    else .error (.missingDep depId sid)

/-- Second loop of `resolveDependencies`: build the edges of every step. -/
def buildEdges (stepMap : List (String × PipelineStep)) :
    List PipelineStep → List (String × Int) → List (String × List String) →
    Except ResolveError (List (String × Int) × List (String × List String))
  | [], inDeg, graph => .ok (inDeg, graph)
  | step :: rest, inDeg, graph =>
    match addStepEdges stepMap step.id step.dependencies inDeg graph with
    | .error e => .error e
    | .ok (inDeg2, graph2) => buildEdges stepMap rest inDeg2 graph2

/-- On dequeuing a step, decrement the in-degree of each dependent
(`inDegree.get(dependentId) ?? 0`, then `set` to one less); a dependent
whose decremented degree reaches zero is pushed onto the queue. -/
def processDependents : List String → List (String × Int) → List String →
    List (String × Int) × List String
  | [], inDeg, queue => (inDeg, queue)
  | d :: rest, inDeg, queue =>
    let cur := (alGet inDeg d).getD 0
    let inDeg2 := alSet inDeg d (cur - 1)
    let queue2 := if cur - 1 == 0 then queue ++ [d] else queue
    processDependents rest inDeg2 queue2

/-- Total non-negative weight of an in-degree map; `queue length + degSum`
strictly decreases at each iteration of Kahn's loop, so it bounds the
number of iterations of the source's `while (queue.length > 0)`. -/
def degSum (l : List (String × Int)) : Nat :=
  l.foldr (fun p acc => p.2.toNat + acc) 0

/-- The `while (queue.length > 0)` loop of Kahn's algorithm, with an
explicit iteration budget.  `resolveOrder` supplies the budget
`queue.length + degSum inDegree`, which is never exhausted
(`kahnLoopF_measure_le` below), so the `fuel = 0` branch reproduces the
source's termination condition exactly. -/
def kahnLoopF (stepMap : List (String × PipelineStep))
    (graph : List (String × List String)) :
    Nat → List String → List (String × Int) → List PipelineStep → List PipelineStep
  | _, [], _, result => result
  | 0, _ :: _, _, result => result
  | fuel + 1, sid :: restQ, inDeg, result =>
    let result2 := match alGet stepMap sid with
      | some s => result ++ [s]
      | none => result
    let pd := processDependents ((alGet graph sid).getD []) inDeg restQ
    kahnLoopF stepMap graph fuel pd.2 pd.1 result2

/-- Kahn's algorithm up to (but excluding) the final length check: build
the maps and edges, seed the queue with the zero-in-degree steps in supply
order, and drain the queue. -/
def resolveOrder (steps : List PipelineStep) : Except ResolveError (List PipelineStep) :=
  let maps := buildMaps steps
  match buildEdges maps.1 steps maps.2.1 maps.2.2 with
  | .error e => .error e
  | .ok (inDeg, graph) =>
    let queue := (inDeg.filter (fun p => p.2 == 0)).map (fun p => p.1)
    .ok (kahnLoopF maps.1 graph (queue.length + degSum inDeg) queue inDeg [])

/-- `ScrapeRunnerImpl.resolveDependencies`: run Kahn's algorithm; if the
produced sequence is shorter than the input, the steps missing from it
form one or more cycles and a circular-dependency error lists them. -/
def resolveDependencies (steps : List PipelineStep) : Except ResolveError (List PipelineStep) :=
  match resolveOrder steps with
  | .error e => .error e
  | .ok result =>
    if result.length ≠ steps.length then
      .error (.circular ((steps.filter
        (fun s => !(result.any (fun r => r.id == s.id)))).map (fun s => s.id)))
    else .ok result

/-! ## Step runner (`ScrapeRunnerImpl.run` / `resume` / `executeStep`) -/

/-- `ScrapeRunnerImpl.executeStep` (lines 341-391): fire `beforeStep`
(runner-level, then step-level), invoke the body; on success fire
`afterStep` (runner-level, then step-level); on a thrown error fire
`onError` (runner-level, then step-level) with the error event, and
rethrow. -/
def executeStep (lc : RunnerLifecycle) (step : PipelineStep) (ctx : Ctx)
    (stepIndex totalSteps : Nat) : List Ev × Except String Ctx :=
  let pre := (if lc.hasBeforeStep then [Ev.runnerBefore step.id] else []) ++
    (if step.hasBeforeStep then [Ev.stepBefore step.id] else [])
  match step.run ctx with
  | .ok ctx2 =>
    (pre ++ [Ev.bodyRun step.id ctx.data] ++
      (if lc.hasAfterStep then [Ev.runnerAfter step.id] else []) ++
      (if step.hasAfterStep then [Ev.stepAfter step.id] else []), .ok ctx2)
  | .error e =>
    let ev : StepErrorEvent := ⟨step.id, ctx.data, stepIndex, totalSteps, e⟩
    (pre ++ [Ev.bodyRun step.id ctx.data] ++
      (if lc.hasOnError then [Ev.runnerError ev] else []) ++
      (if step.hasOnError then [Ev.stepError ev] else []), .error e)

/-- The shared `for` loop of `run`/`resume` over `stepsToRun`: execute each
step; on success push its id onto `completedSteps`; on a throw push the id
onto `failedSteps`, fire `onError` once more (runner-level, then
step-level — the source fires these hooks both in `executeStep` and in the
`catch` of the loop) and propagate the error. -/
def runLoop (lc : RunnerLifecycle) (total : Nat) :
    List PipelineStep → Ctx → Nat → List String → List String →
    List Ev × Except RunErr (List String × List String)
  | [], _, _, completed, failed => ([], .ok (completed, failed))
  | step :: rest, ctx, stepIndex, completed, failed =>
    let ex := executeStep lc step ctx stepIndex total
    match ex.2 with
    | .ok ctx2 =>
      let r := runLoop lc total rest ctx2 (stepIndex + 1) (completed ++ [step.id]) failed
      (ex.1 ++ r.1, r.2)
    | .error e =>
      let ev : StepErrorEvent := ⟨step.id, ctx.data, stepIndex, total, e⟩
      (ex.1 ++ (if lc.hasOnError then [Ev.runnerError ev] else []) ++
        (if step.hasOnError then [Ev.stepError ev] else []),
       .error (.stepFailed e completed (failed ++ [step.id])))

/-- `ScrapeRunnerImpl.run` (lines 204-270): resolve the order, locate the
optional `startStepId` (`findIndex`, failing when absent), and execute the
remaining steps sequentially from a fresh context. -/
def runnerRun (lc : RunnerLifecycle) (steps : List PipelineStep)
    (startStepId : Option String) : List Ev × Except RunErr RunResult :=
  match resolveDependencies steps with
  | .error e => ([], .error (.resolve e))
  | .ok ordered =>
    match startStepId with
    | none =>
      let r := runLoop lc ordered.length ordered ⟨[]⟩ 0 [] []
      (r.1, r.2.map (fun p => ⟨ordered.length, p.1, p.2⟩))
    | some sid =>
      match ordered.findIdx? (fun s => s.id == sid) with
      | none => ([], .error (.stepNotFound sid))
      | some i =>
        let r := runLoop lc ordered.length (ordered.drop i) ⟨[]⟩ i [] []
        (r.1, r.2.map (fun p => ⟨ordered.length, p.1, p.2⟩))

/-- Resume state (`RunnerState`): current step, step index, completed and
failed step ids, and the per-step payload map. -/
structure RunnerState where
  currentStepId : String
  stepIndex : Int
  completedStepIds : List String
  failedStepIds : List String
  payload : List (String × PMap)
deriving DecidableEq

/-- `ScrapeRunnerImpl.resume` (lines 272-339): like `run`, but the context
data is seeded with `{...{}, ...state.payload}`, execution starts at
`state.stepIndex` (rejected with an invalid-step-index error outside
`[0, orderedSteps.length)`), and the completed/failed accumulators start
from the state's lists. -/
def runnerResume (lc : RunnerLifecycle) (steps : List PipelineStep)
    (state : RunnerState) : List Ev × Except RunErr RunResult :=
  match resolveDependencies steps with
  | .error e => ([], .error (.resolve e))
  | .ok ordered =>
    if state.stepIndex < 0 ∨ (ordered.length : Int) ≤ state.stepIndex then
      ([], .error (.invalidStepIndex state.stepIndex))
    else
      let i := state.stepIndex.toNat
      let r := runLoop lc ordered.length (ordered.drop i) ⟨objMerge [] state.payload⟩ i
        state.completedStepIds state.failedStepIds
      (r.1, r.2.map (fun p => ⟨ordered.length, p.1, p.2⟩))

/-! ## Resumable state store (`StepLogger`, lines 455-716)

The persisted state is the log directory: a map from file name to the
parsed record (`FS`).  A clearly-malformed persisted file is treated by
the source exactly like an absent one, so it is not modelled separately.
The `logDir` option only prefixes every path uniformly and is omitted. -/

/-- Identifier of one recorded failure (`number | string`). -/
abbrev FailureId := Sum Int String

/-- One persisted record (`StepLogRecord`): progress `index`, ordered
failure list, last-mutation stamp, optional opaque payload. -/
structure StepLogRecord where
  stepId : String
  index : Int
  fails : List FailureId
  updatedAt : Nat
  payload : Option PMap := none
deriving DecidableEq

/-- The persisted state: file name to record. -/
abbrev FS := List (String × StepLogRecord)

/-- Store configuration (`StepLoggerOptions`). -/
structure StepLogger where
  runId : String
  persistInProductionOnly : Bool := true
  isProduction : Bool := false
deriving DecidableEq

/-- `StepLogger.shouldPersist` (lines 636-642): persist always unless
configured production-only, in which case only in production mode. -/
def StepLogger.shouldPersist (lg : StepLogger) : Bool :=
  !lg.persistInProductionOnly || lg.isProduction

/-- File-name prefix of the run (`` `${runId}-` ``). -/
def StepLogger.filePref (lg : StepLogger) : String :=
  lg.runId ++ "-"

/-- Path of a step's record (`` `${runId}-${stepId}.json` ``). -/
def StepLogger.buildFilePath (lg : StepLogger) (stepId : String) : String :=
  lg.filePref ++ stepId ++ ".json"

/-- `StepLogger.readStep` (lines 652-676): return the persisted record, or
a freshly-initialised default (`index = 0`, `fails = []`, stamped with the
current time) when the file is absent or malformed. -/
def StepLogger.readStep (lg : StepLogger) (fs : FS) (stepId : String)
    (now : Nat) : StepLogRecord :=
  match alGet fs (lg.buildFilePath stepId) with
  | some r => r
  | none => ⟨stepId, 0, [], now, none⟩

/-- `StepLogger.writeStep` (lines 678-682). -/
def StepLogger.writeStep (lg : StepLogger) (fs : FS) (r : StepLogRecord) : FS :=
  alSet fs (lg.buildFilePath r.stepId) r

/-- `StepLogger.setLogForCurrentStepIndex` (lines 502-514): gated by
`shouldPersist`; upsert the record's `index`; when the new index is `0`
also clear `fails`; stamp `updatedAt`. -/
def StepLogger.setLogForCurrentStepIndex (lg : StepLogger) (fs : FS)
    (stepId : String) (index : Int) (now : Nat) : FS :=
  if !lg.shouldPersist then fs
  else
    let r := lg.readStep fs stepId now
    lg.writeStep fs { r with
      index := index
      fails := if index = 0 then [] else r.fails
      updatedAt := now }

/-- `StepLogger.setLogForCurrentStepFails` (lines 519-528): gated by
`shouldPersist`; append the failure id to `fails`; stamp `updatedAt`. -/
def StepLogger.setLogForCurrentStepFails (lg : StepLogger) (fs : FS)
    (stepId : String) (failureId : FailureId) (now : Nat) : FS :=
  if !lg.shouldPersist then fs
  else
    let r := lg.readStep fs stepId now
    lg.writeStep fs { r with
      fails := r.fails ++ [failureId]
      updatedAt := now }

/-- `StepLogger.setStepPayload` (lines 533-542): gated by `shouldPersist`;
shallow-merge into the record's payload; stamp `updatedAt`. -/
def StepLogger.setStepPayload (lg : StepLogger) (fs : FS) (stepId : String)
    (payload : PMap) (now : Nat) : FS :=
  if !lg.shouldPersist then fs
  else
    let r := lg.readStep fs stepId now
    lg.writeStep fs { r with
      payload := some (objMerge (r.payload.getD []) payload)
      updatedAt := now }

/-- `StepLogger.getLogByStep` (lines 547-549): read the record; note that
this read is NOT gated by `shouldPersist`. -/
def StepLogger.getLogByStep (lg : StepLogger) (fs : FS) (stepId : String)
    (now : Nat) : StepLogRecord :=
  lg.readStep fs stepId now

/-- `String.startsWith`, modelled on the character list. -/
def strStartsWith (s pre : String) : Bool :=
  pre.toList.isPrefixOf s.toList

/-- `String.endsWith`, modelled on the character list. -/
def strEndsWith (s suf : String) : Bool :=
  suf.toList.isSuffixOf s.toList

/-- Stable insertion of a record into a list ascending in `updatedAt`
(model of the stable `Array.prototype.sort` comparator
`(a, b) => a.updatedAt - b.updatedAt`). -/
def insertByUpdated (r : StepLogRecord) : List StepLogRecord → List StepLogRecord
  | [] => [r]
  | x :: xs =>
    if r.updatedAt ≤ x.updatedAt then r :: x :: xs else x :: insertByUpdated r xs

/-- Stable sort by `updatedAt` ascending. -/
def sortByUpdated : List StepLogRecord → List StepLogRecord
  | [] => []
  | x :: xs => insertByUpdated x (sortByUpdated xs)

/-- `StepLogger.getAllLogs` (lines 554-574): the run's records — files
matching the run prefix and the `.json` suffix — sorted by `updatedAt`
ascending. -/
def StepLogger.getAllLogs (lg : StepLogger) (fs : FS) : List StepLogRecord :=
  sortByUpdated ((fs.filter
    (fun p => strStartsWith p.1 lg.filePref && strEndsWith p.1 ".json")).map (fun p => p.2))

/-- `StepLogger.buildRunnerState` (lines 579-605): aggregate the run's
records into a `RunnerState`.  `currentStepId` is the explicit override,
else the last record with `index > 0`, else the last (most recently
updated) record, else empty; `stepIndex` is that record's `index`. -/
def StepLogger.buildRunnerState (lg : StepLogger) (fs : FS)
    (currentStepId : Option String) : RunnerState :=
  let logs := lg.getAllLogs fs
  let completedStepIds := (logs.filter (fun l => l.index == 0)).map (fun l => l.stepId)
  let failedStepIds := (logs.filter (fun l => !l.fails.isEmpty)).map (fun l => l.stepId)
  let payload := logs.foldl
    (fun acc l => match l.payload with
      | some p => alSet acc l.stepId p
      | none => acc) []
  let lastInProgress := logs.reverse.find? (fun l => 0 < l.index)
  let lastLog := logs.getLast?
  let inferredCurrentStep := match currentStepId with
    | some c => c
    | none => match lastInProgress with
      | some l => l.stepId
      | none => match lastLog with
        | some l => l.stepId
        | none => ""
  let inferredIndex := match logs.find? (fun l => l.stepId == inferredCurrentStep) with
    | some l => l.index
    | none => 0
  ⟨inferredCurrentStep, inferredIndex, completedStepIds, failedStepIds, payload⟩

/-- `StepLogger.clearStep` (lines 610-617): gated by `shouldPersist`;
remove the step's file. -/
def StepLogger.clearStep (lg : StepLogger) (fs : FS) (stepId : String) : FS :=
  if !lg.shouldPersist then fs
  else fs.filter (fun p => p.1 ≠ lg.buildFilePath stepId)

/-- `StepLogger.clearAll` (lines 622-634): gated by `shouldPersist`;
remove every file of the run. -/
def StepLogger.clearAll (lg : StepLogger) (fs : FS) : FS :=
  if !lg.shouldPersist then fs
  else fs.filter (fun p => !(strStartsWith p.1 lg.filePref && strEndsWith p.1 ".json"))

/-! ## Iteration controller (`LoopController`, lines 19-131)

`loopDelay` paces the loop with `setInterval`; the verified properties are
about the sequence of callback invocations, so the timer is modelled as
the sequence of tick executions.  The source's tick condition is
`currentIndex <= adjustedLimit` with `currentIndex` incremented by one per
tick; `tickLoop` carries the equivalent decreasing counter
`remaining = toNat (adjustedLimit + 1 - currentIndex)`, which is positive
exactly when the source's condition holds. -/

/-- `LoopController.DEFAULT_MAX_ITEMS`. -/
def DEFAULT_MAX_ITEMS : Int := 10

/-- Controller configuration (`LoopControllerOptions`): production flag,
safety cap, presence flags of the optional callbacks, and the
current-position accessor (`getCurrentStepValue`) with its reported
value. -/
structure LoopCfg where
  isProduction : Bool := false
  maxItems : Int := DEFAULT_MAX_ITEMS
  hasOnProgress : Bool := false
  hasOnFailure : Bool := false
  getCurrentStepValue : Option Int := none
  hasSetLog : Bool := false
deriving DecidableEq

/-- A captured per-item failure (`LoopFailure`): index, error, the item at
that index, and the capture timestamp (the tick counter in this model). -/
structure LoopFailure where
  index : Int
  error : String
  item : Option String
  timestamp : Nat
deriving DecidableEq

/-- `list[currentIndex]` with JavaScript out-of-range semantics. -/
def listGetI (l : List String) (i : Int) : Option String :=
  if 0 ≤ i then l.get? i.toNat else none

/-- Observable events of one `loopDelay` run: item-callback calls, persisted
index updates, progress reports, failure-callback calls and the completion
callback. -/
inductive LEv where
  | todoCall (i : Int)
  | setLog (i : Int)
  | progress (current total remaining : Int)
  | failureCb (i : Int) (error : String) (item : Option String)
  | done
deriving DecidableEq

/-- The tick sequence of `loopDelay` (lines 64-108).  While the counter is
positive (source condition `currentIndex <= adjustedLimit`): invoke the
item callback; on success persist the new index and report progress; on
failure capture a `LoopFailure`, invoke the failure callback and continue.
When the index exceeds the bound: reset the persisted index to zero and
invoke the completion callback. -/
def tickLoop (cfg : LoopCfg) (todo : Int → Except String Unit) (list : List String)
    (delay : Int) (adjusted : Int) :
    Nat → Int → Int → Nat → List LEv × List LoopFailure
  | 0, _, _, _ => ((if cfg.hasSetLog then [LEv.setLog 0] else []) ++ [LEv.done], [])
  | remaining + 1, i, remTime, k =>
    match todo i with
    | .ok _ =>
      let remTime2 := remTime - delay
      let evs := [LEv.todoCall i] ++ (if cfg.hasSetLog then [LEv.setLog i] else []) ++
        (if cfg.hasOnProgress then [LEv.progress i adjusted remTime2] else [])
      let r := tickLoop cfg todo list delay adjusted remaining (i + 1) remTime2 (k + 1)
      (evs ++ r.1, r.2)
    | .error e =>
      let item := listGetI list i
      let evs := [LEv.todoCall i] ++
        (if cfg.hasOnFailure then [LEv.failureCb i e item] else [])
      let r := tickLoop cfg todo list delay adjusted remaining (i + 1) remTime (k + 1)
      (evs ++ r.1, ⟨i, e, item, k⟩ :: r.2)

/-- The effective (capped) iteration bound: outside production mode the
limit is capped at `maxItems`. -/
def effectiveLimit (cfg : LoopCfg) (limit : Int) : Int :=
  if !cfg.isProduction && cfg.maxItems < limit then cfg.maxItems else limit

/-- `LoopController.loopDelay` (lines 40-109): cap the limit outside
production; when the current-position accessor reports a position greater
than zero, start there and subtract it from the bound (resume-in-place);
then tick.  The initial time estimate is `(adjustedLimit + 2) * delay`. -/
def loopDelay (cfg : LoopCfg) (limit : Int) (todo : Int → Except String Unit)
    (delay : Int := 1000) (i : Int := 0) (list : List String := []) :
    List LEv × List LoopFailure :=
  let adjusted1 := effectiveLimit cfg limit
  let start := match cfg.getCurrentStepValue with
    | some p => if 0 < p then p else i
    | none => i
  let adjusted := match cfg.getCurrentStepValue with
    | some p => if 0 < p then adjusted1 - p else adjusted1
    | none => adjusted1
  tickLoop cfg todo list delay adjusted ((adjusted + 1 - start).toNat) start
    ((adjusted + 2) * delay) 0

/-! ## Spec-level combinators for the runner and resolver theorems -/

/-- The event pattern of one successfully executed step, with the shared
data `d` of the context its body receives: runner-level `beforeStep`, then
step-level `beforeStep`, then the body, then runner-level `afterStep`,
then step-level `afterStep`. -/
def successPattern (lc : RunnerLifecycle) (s : PipelineStep)
    (d : List (String × PMap)) : List Ev :=
  (if lc.hasBeforeStep then [Ev.runnerBefore s.id] else []) ++
  (if s.hasBeforeStep then [Ev.stepBefore s.id] else []) ++
  [Ev.bodyRun s.id d] ++
  (if lc.hasAfterStep then [Ev.runnerAfter s.id] else []) ++
  (if s.hasAfterStep then [Ev.stepAfter s.id] else [])

/-- The context resulting from one body (unchanged when the body throws). -/
def nextCtx (s : PipelineStep) (c : Ctx) : Ctx :=
  match s.run c with
  | .ok c2 => c2
  | .error _ => c

/-- The sequence of contexts received by the successive steps of a list. -/
def ctxTrail : List PipelineStep → Ctx → List Ctx
  | [], _ => []
  | s :: rest, c => c :: ctxTrail rest (nextCtx s c)

/-- Thread the bodies of a list of steps through a context, stopping at the
first thrown error. -/
def applyBodies : List PipelineStep → Ctx → Except String Ctx
  | [], c => .ok c
  | s :: rest, c =>
    match s.run c with
    | .ok c2 => applyBodies rest c2
    | .error e => .error e

/-- Step ids whose bodies were invoked, in trace order. -/
def bodyIds : List Ev → List String
  | [] => []
  | Ev.bodyRun sid _ :: rest => sid :: bodyIds rest
  | Ev.runnerBefore _ :: rest => bodyIds rest
  | Ev.stepBefore _ :: rest => bodyIds rest
  | Ev.runnerAfter _ :: rest => bodyIds rest
  | Ev.stepAfter _ :: rest => bodyIds rest
  | Ev.runnerError _ :: rest => bodyIds rest
  | Ev.stepError _ :: rest => bodyIds rest

/-- The ids of a step list, in order. -/
def stepIds (steps : List PipelineStep) : List String :=
  steps.map (fun s => s.id)

/-- Every declared dependency references a step of the set. -/
def depsPresent (steps : List PipelineStep) : Prop :=
  ∀ s ∈ steps, ∀ d ∈ s.dependencies, d ∈ stepIds steps

/-- The step set admits a topological linear order: some permutation lists
every step after all of its dependencies.  This is the spec's notion of a
valid DAG (it implies that every dependency id is present). -/
def hasTopo (steps : List PipelineStep) : Prop :=
  ∃ L, steps.Perm L ∧
    ∀ i (h : i < L.length), ∀ d ∈ (L.get ⟨i, h⟩).dependencies,
      d ∈ stepIds (L.take i)

/-- The adjacency list that the edge-building pass accumulates for a node
`d`: one occurrence of `t.id` for every occurrence of `d` among the
dependencies of `t`, in supply order. -/
def depList (steps : List PipelineStep) (d : String) : List String :=
  steps.flatMap (fun t => List.replicate (t.dependencies.count d) t.id)

/-! ## Concrete fixtures used by witnesses and counterexamples -/

/-- A runner lifecycle with every hook defined. -/
def lcAll : RunnerLifecycle := ⟨true, true, true⟩

/-- A runner lifecycle with no hooks defined. -/
def lcNone : RunnerLifecycle := ⟨false, false, false⟩

/-- Step `A` with no dependencies and a succeeding body. -/
def okStepA : PipelineStep := { id := "A", run := fun c => .ok c }

/-- Step `B` depending on `A`, with a succeeding body. -/
def okStepB : PipelineStep := { id := "B", dependencies := ["A"], run := fun c => .ok c }

/-- Step `C` depending on `B`, with a succeeding body. -/
def okStepC : PipelineStep := { id := "C", dependencies := ["B"], run := fun c => .ok c }

/-- Step `A` with all step-level hooks defined. -/
def hookStepA : PipelineStep :=
  { id := "A", run := fun c => .ok c,
    hasBeforeStep := true, hasAfterStep := true, hasOnError := true }

/-- Step `B` (depending on `A`) with all step-level hooks defined. -/
def hookStepB : PipelineStep :=
  { id := "B", dependencies := ["A"], run := fun c => .ok c,
    hasBeforeStep := true, hasAfterStep := true, hasOnError := true }

/-- Step `B` (depending on `A`) whose body always throws `"boom"`, with an
`onError` hook. -/
def failStepB : PipelineStep :=
  { id := "B", dependencies := ["A"], run := fun _ => .error "boom",
    hasOnError := true }

/-- The list of consecutive integers `i, i+1, …, i+r-1`. -/
def intsFrom (i : Int) : Nat → List Int
  | 0 => []
  | r + 1 => i :: intsFrom (i + 1) r

/-- Indices at which the item callback was invoked, in trace order. -/
def todoIdxs : List LEv → List Int
  | [] => []
  | LEv.todoCall i :: rest => i :: todoIdxs rest
  | LEv.setLog _ :: rest => todoIdxs rest
  | LEv.progress _ _ _ :: rest => todoIdxs rest
  | LEv.failureCb _ _ _ :: rest => todoIdxs rest
  | LEv.done :: rest => todoIdxs rest

/-- Invariant of the drain loop of Kahn's algorithm, relating the queue,
the in-degree map and the accumulated result to the original step set:
the emitted ids and the queue are disjoint and duplicate-free; every
step's in-degree equals its number of dependency occurrences not yet
emitted; the queue holds exactly the unemitted steps of in-degree zero;
emitted steps come from the set, each listed after all of its
dependencies, and their dependency closure is emitted. -/
structure KahnInv (steps : List PipelineStep) (Q : List String)
    (D : List (String × Int)) (R : List PipelineStep) : Prop where
  nodup : (stepIds R ++ Q).Nodup
  memIds : ∀ x ∈ stepIds R ++ Q, x ∈ stepIds steps
  deg : ∀ s ∈ steps, alGet D s.id =
    some (((s.dependencies.filter (fun d => decide (d ∉ stepIds R))).length : Int))
  queue : ∀ x, x ∈ Q ↔ (x ∈ stepIds steps ∧ x ∉ stepIds R ∧ alGet D x = some 0)
  sub : ∀ s ∈ R, s ∈ steps
  ordered : ∀ i (h : i < R.length), ∀ d ∈ (R.get ⟨i, h⟩).dependencies,
    d ∈ stepIds (R.take i)
  closed : ∀ s ∈ steps, s.id ∈ stepIds R → ∀ d ∈ s.dependencies, d ∈ stepIds R

/-- What holds of the result once the queue is drained. -/
structure KahnFinal (steps : List PipelineStep) (R : List PipelineStep) : Prop where
  nodup : (stepIds R).Nodup
  sub : ∀ s ∈ R, s ∈ steps
  ordered : ∀ i (h : i < R.length), ∀ d ∈ (R.get ⟨i, h⟩).dependencies,
    d ∈ stepIds (R.take i)
  blocked : ∀ s ∈ steps, s.id ∉ stepIds R → ∃ d ∈ s.dependencies, d ∉ stepIds R

/-- Steps `A` and `B` in a mutual dependency cycle. -/
def cycStepA : PipelineStep := { id := "A", dependencies := ["B"], run := fun c => .ok c }

/-- Second half of the mutual cycle. -/
def cycStepB : PipelineStep := { id := "B", dependencies := ["A"], run := fun c => .ok c }

/-- A step declaring a dependency id absent from every fixture set. -/
def danglingStepA : PipelineStep :=
  { id := "A", dependencies := ["X"], run := fun c => .ok c }

/-- Steps `B` and `C` in a mutual dependency cycle, for sets that also
contain a missing dependency. -/
def mutStepB : PipelineStep := { id := "B", dependencies := ["C"], run := fun c => .ok c }

/-- Second half of the `B`/`C` mutual cycle. -/
def mutStepC : PipelineStep := { id := "C", dependencies := ["B"], run := fun c => .ok c }

/-! ## Association-list toolkit -/

theorem alGet_nil {α : Type} (k : String) : alGet ([] : List (String × α)) k = none := rfl

theorem alGet_cons {α : Type} (k1 : String) (v1 : α) (rest : List (String × α)) (k : String) :
    alGet ((k1, v1) :: rest) k = if k1 == k then some v1 else alGet rest k := by
  simp only [alGet, List.find?]
  by_cases h : k1 == k <;> simp [h]

theorem alGet_alSet_self {α : Type} (l : List (String × α)) (k : String) (v : α) :
    alGet (alSet l k v) k = some v := by
  induction l with
  | nil => simp [alSet, alGet_cons]
  | cons p rest ih =>
    obtain ⟨k1, v1⟩ := p
    by_cases h : k1 == k
    · simp [alSet, h, alGet_cons]
    · simp [alSet, h, alGet_cons, ih]

theorem alGet_alSet_ne {α : Type} (l : List (String × α)) (k k' : String) (v : α)
    (h : k' ≠ k) : alGet (alSet l k v) k' = alGet l k' := by
  have hb : (k == k') = false := by
    simp only [beq_eq_false_iff_ne, ne_eq]
    exact fun hkk => h hkk.symm
  induction l with
  | nil => simp [alSet, alGet_cons, hb]
  | cons p rest ih =>
    obtain ⟨k1, v1⟩ := p
    by_cases h1 : k1 == k
    · have : k1 = k := by simpa using h1
      subst this
      simp [alSet, alGet_cons, hb]
    · simp [alSet, h1, alGet_cons, ih]

/-! ## C4: state-store mutation semantics -/

theorem getLog_writeStep (lg : StepLogger) (fs : FS) (r : StepLogRecord)
    (stepId : String) (now2 : Nat) (h : r.stepId = stepId) :
    lg.getLogByStep (lg.writeStep fs r) stepId now2 = r := by
  simp [StepLogger.getLogByStep, StepLogger.readStep, StepLogger.writeStep, h, alGet_alSet_self]

theorem readStep_fails_time (lg : StepLogger) (fs : FS) (stepId : String) (now now2 : Nat) :
    (lg.readStep fs stepId now).fails = (lg.readStep fs stepId now2).fails := by
  simp only [StepLogger.readStep]
  cases alGet fs (lg.buildFilePath stepId) <;> rfl

theorem readStep_index_time (lg : StepLogger) (fs : FS) (stepId : String) (now now2 : Nat) :
    (lg.readStep fs stepId now).index = (lg.readStep fs stepId now2).index := by
  simp only [StepLogger.readStep]
  cases alGet fs (lg.buildFilePath stepId) <;> rfl

/-- C4: for a persisting store (and a step whose stored record, if any,
carries its own id — the invariant every store-created record satisfies):
`setProgress(stepId, 0)` clears that step's `fails`; `setProgress(stepId, n)`
with `n > 0` never modifies `fails`; `recordFailure(stepId, failureId)`
appends `failureId` at the end of `fails`, preserving earlier entries, and
does not alter `index`; every one of these mutations stamps `updatedAt`. -/
theorem claim_C4_store_mutations (lg : StepLogger) (fs : FS) (stepId : String)
    (now now2 : Nat) (n : Int) (fid : FailureId)
    (hp : lg.shouldPersist = true)
    (hwf : (lg.getLogByStep fs stepId now).stepId = stepId) :
    ((lg.getLogByStep (lg.setLogForCurrentStepIndex fs stepId 0 now) stepId now2).index = 0 ∧
     (lg.getLogByStep (lg.setLogForCurrentStepIndex fs stepId 0 now) stepId now2).fails = [] ∧
     (lg.getLogByStep (lg.setLogForCurrentStepIndex fs stepId 0 now) stepId now2).updatedAt = now) ∧
    (0 < n →
     (lg.getLogByStep (lg.setLogForCurrentStepIndex fs stepId n now) stepId now2).index = n ∧
     (lg.getLogByStep (lg.setLogForCurrentStepIndex fs stepId n now) stepId now2).fails =
       (lg.getLogByStep fs stepId now2).fails ∧
     (lg.getLogByStep (lg.setLogForCurrentStepIndex fs stepId n now) stepId now2).updatedAt = now) ∧
    ((lg.getLogByStep (lg.setLogForCurrentStepFails fs stepId fid now) stepId now2).fails =
       (lg.getLogByStep fs stepId now2).fails ++ [fid] ∧
     (lg.getLogByStep (lg.setLogForCurrentStepFails fs stepId fid now) stepId now2).index =
       (lg.getLogByStep fs stepId now2).index ∧
     (lg.getLogByStep (lg.setLogForCurrentStepFails fs stepId fid now) stepId now2).updatedAt = now) := by
  rcases hget : alGet fs (lg.buildFilePath stepId) with _ | r
  · refine ⟨?_, ?_, ?_⟩
    · simp [StepLogger.getLogByStep, StepLogger.setLogForCurrentStepIndex, hp,
        StepLogger.readStep, StepLogger.writeStep, hget, alGet_alSet_self]
    · intro hn
      have hn0 : ¬(n = 0) := by omega
      simp [StepLogger.getLogByStep, StepLogger.setLogForCurrentStepIndex, hp,
        StepLogger.readStep, StepLogger.writeStep, hget, alGet_alSet_self, hn0]
    · simp [StepLogger.getLogByStep, StepLogger.setLogForCurrentStepFails, hp,
        StepLogger.readStep, StepLogger.writeStep, hget, alGet_alSet_self]
  · obtain ⟨sid, idx, fl, upd, pl⟩ := r
    simp only [StepLogger.getLogByStep, StepLogger.readStep, hget] at hwf
    subst hwf
    refine ⟨?_, ?_, ?_⟩
    · simp [StepLogger.getLogByStep, StepLogger.setLogForCurrentStepIndex, hp,
        StepLogger.readStep, StepLogger.writeStep, hget, alGet_alSet_self]
    · intro hn
      have hn0 : ¬(n = 0) := by omega
      simp [StepLogger.getLogByStep, StepLogger.setLogForCurrentStepIndex, hp,
        StepLogger.readStep, StepLogger.writeStep, hget, alGet_alSet_self, hn0]
    · simp [StepLogger.getLogByStep, StepLogger.setLogForCurrentStepFails, hp,
        StepLogger.readStep, StepLogger.writeStep, hget, alGet_alSet_self]

/-- Witness for C4: a concrete persisting store, exercised at step `"s"`. -/
theorem claim_C4_store_mutations_witness :
    (StepLogger.shouldPersist ⟨"run", true, true⟩ = true) ∧
    ((StepLogger.getLogByStep ⟨"run", true, true⟩
        (StepLogger.setLogForCurrentStepFails ⟨"run", true, true⟩
          [("run-s.json", ⟨"s", 3, [Sum.inl 1], 2, none⟩)] "s" (Sum.inl 7) 9)
        "s" 11).fails =
      (StepLogger.getLogByStep ⟨"run", true, true⟩
        [("run-s.json", ⟨"s", 3, [Sum.inl 1], 2, none⟩)] "s" 11).fails ++ [Sum.inl 7]) := by
  have h := claim_C4_store_mutations ⟨"run", true, true⟩
    [("run-s.json", ⟨"s", 3, [Sum.inl 1], 2, none⟩)] "s" 9 11 1 (Sum.inl 7)
    (by decide) (by decide)
  exact ⟨by decide, h.2.2.1⟩

/-! ## C7: persistence gating outside production mode -/

/-- C7 (amended): with a store configured to persist only in production and
not in production mode, every write operation (`setProgress`,
`recordFailure`, `setPayload` and the clear operations) leaves the
persisted state unchanged; a read returns the freshly-initialised default
record whenever the underlying storage holds no record for that run and
step — in particular always on a storage such a store started empty. -/
theorem claim_C7_dev_mode_noop (lg : StepLogger) (fs : FS) (stepId : String)
    (idx : Int) (fid : FailureId) (pm : PMap) (now : Nat)
    (hp : lg.shouldPersist = false) :
    lg.setLogForCurrentStepIndex fs stepId idx now = fs ∧
    lg.setLogForCurrentStepFails fs stepId fid now = fs ∧
    lg.setStepPayload fs stepId pm now = fs ∧
    lg.clearStep fs stepId = fs ∧
    lg.clearAll fs = fs ∧
    (alGet fs (lg.buildFilePath stepId) = none →
      lg.getLogByStep fs stepId now = ⟨stepId, 0, [], now, none⟩) := by
  refine ⟨?_, ?_, ?_, ?_, ?_, ?_⟩
  · simp [StepLogger.setLogForCurrentStepIndex, hp]
  · simp [StepLogger.setLogForCurrentStepFails, hp]
  · simp [StepLogger.setStepPayload, hp]
  · simp [StepLogger.clearStep, hp]
  · simp [StepLogger.clearAll, hp]
  · intro habs
    simp [StepLogger.getLogByStep, StepLogger.readStep, habs]

/-- Counterexample for C7 as stated: a development-mode store whose
underlying storage holds a pre-existing record (for example written by an
earlier production run of the same run id) returns that record, not the
freshly-initialised default — reads are not gated by `shouldPersist`. -/
theorem claim_C7_dev_mode_noop_counterexample :
    (StepLogger.shouldPersist ⟨"run", true, false⟩ = false) ∧
    (StepLogger.getLogByStep ⟨"run", true, false⟩
      [("run-s.json", ⟨"s", 5, [], 0, none⟩)] "s" 7) = ⟨"s", 5, [], 0, none⟩ ∧
    (StepLogger.getLogByStep ⟨"run", true, false⟩
      [("run-s.json", ⟨"s", 5, [], 0, none⟩)] "s" 7).index ≠ 0 := by
  refine ⟨by decide, by decide, by decide⟩

/-- Witness for C7: a concrete development-mode store over a storage with
no record for the step. -/
theorem claim_C7_dev_mode_noop_witness :
    (StepLogger.shouldPersist ⟨"run", true, false⟩ = false) ∧
    StepLogger.setLogForCurrentStepIndex ⟨"run", true, false⟩ [] "s" 4 9 = [] ∧
    StepLogger.getLogByStep ⟨"run", true, false⟩ [] "s" 9 = ⟨"s", 0, [], 9, none⟩ := by
  have h := claim_C7_dev_mode_noop ⟨"run", true, false⟩ [] "s" 4 (Sum.inl 0) [] 9 (by decide)
  exact ⟨by decide, h.1, h.2.2.2.2.2 (by decide)⟩

/-! ## C5: resume-state aggregation -/

theorem find?_split {α : Type} (p : α → Bool) (l : List α) (r : α)
    (h : l.find? p = some r) :
    ∃ l1 l2, l = l1 ++ r :: l2 ∧ p r = true ∧ ∀ x ∈ l1, p x = false := by
  induction l with
  | nil => simp [List.find?] at h
  | cons a l ih =>
    rcases hpa : p a with _ | _
    · rw [List.find?_cons_of_neg _ (by simp [hpa])] at h
      obtain ⟨l1, l2, heq, hr, hl1⟩ := ih h
      refine ⟨a :: l1, l2, by rw [heq]; rfl, hr, ?_⟩
      intro x hx
      rcases List.mem_cons.mp hx with hx | hx
      · rw [hx]; exact hpa
      · exact hl1 x hx
    · rw [List.find?_cons_of_pos _ hpa] at h
      cases h
      exact ⟨[], l, rfl, hpa, by simp⟩

theorem find?_nodup_stepId (logs : List StepLogRecord) (r : StepLogRecord)
    (hnd : (logs.map (fun l => l.stepId)).Nodup) (hr : r ∈ logs) :
    logs.find? (fun l => l.stepId == r.stepId) = some r := by
  induction logs with
  | nil => simp at hr
  | cons a logs ih =>
    rcases List.mem_cons.mp hr with hr' | hr'
    · subst hr'
      exact List.find?_cons_of_pos _ (by simp)
    · have hane : a.stepId ≠ r.stepId := by
        intro hcontra
        have : r.stepId ∈ logs.map (fun l => l.stepId) := List.mem_map_of_mem _ hr'
        rw [← hcontra] at this
        exact (List.nodup_cons.mp hnd).1 this
      rw [List.find?_cons_of_neg _ (by simp [hane])]
      exact ih (List.nodup_cons.mp hnd).2 hr'

/-- Counterexample for C5 as stated: on a store holding the records
`{step1: index = 0}` and `{step2: index = 10}` the derived state has
`stepIndex = 10`, which cannot be `step2`'s ordinal position in any
ordering of the run's two steps — the code returns the record's progress
`index`, not an ordinal position in dependency order. -/
theorem claim_C5_resume_state_counterexample :
    (StepLogger.buildRunnerState ⟨"run", true, true⟩
      [("run-step1.json", ⟨"step1", 0, [], 5, none⟩),
       ("run-step2.json", ⟨"step2", 10, [], 7, none⟩)] none).currentStepId = "step2" ∧
    (StepLogger.buildRunnerState ⟨"run", true, true⟩
      [("run-step1.json", ⟨"step1", 0, [], 5, none⟩),
       ("run-step2.json", ⟨"step2", 10, [], 7, none⟩)] none).stepIndex = 10 ∧
    (StepLogger.getAllLogs ⟨"run", true, true⟩
      [("run-step1.json", ⟨"step1", 0, [], 5, none⟩),
       ("run-step2.json", ⟨"step2", 10, [], 7, none⟩)]).length = 2 ∧
    ¬((StepLogger.buildRunnerState ⟨"run", true, true⟩
      [("run-step1.json", ⟨"step1", 0, [], 5, none⟩),
       ("run-step2.json", ⟨"step2", 10, [], 7, none⟩)] none).stepIndex <
      ((StepLogger.getAllLogs ⟨"run", true, true⟩
        [("run-step1.json", ⟨"step1", 0, [], 5, none⟩),
         ("run-step2.json", ⟨"step2", 10, [], 7, none⟩)]).length : Int)) := by
  refine ⟨by decide, by decide, by decide, by decide⟩

/-- C5 (amended): `buildResumeState` aggregates the run's records as:
`currentStepId` is the last record (in `updatedAt` order) with
`index > 0`, else the most recently updated record, else empty;
`stepIndex` is that record's recorded progress `index` (not an ordinal
position in dependency order); `completedStepIds` are the steps whose
record has `index == 0` and `failedStepIds` those with non-empty `fails`;
on a store with no records it returns `currentStepId = ""` and
`stepIndex = 0`. -/
theorem claim_C5_resume_state (lg : StepLogger) (fs : FS) :
    (lg.getAllLogs fs = [] → lg.buildRunnerState fs none = ⟨"", 0, [], [], []⟩) ∧
    (∀ id : String,
      (id ∈ (lg.buildRunnerState fs none).completedStepIds ↔
        ∃ r ∈ lg.getAllLogs fs, r.stepId = id ∧ r.index = 0) ∧
      (id ∈ (lg.buildRunnerState fs none).failedStepIds ↔
        ∃ r ∈ lg.getAllLogs fs, r.stepId = id ∧ r.fails ≠ [])) ∧
    ((∃ r ∈ lg.getAllLogs fs, 0 < r.index) →
      ∃ l1 r l2, lg.getAllLogs fs = l1 ++ r :: l2 ∧ 0 < r.index ∧
        (∀ r' ∈ l2, ¬ 0 < r'.index) ∧
        (lg.buildRunnerState fs none).currentStepId = r.stepId ∧
        (((lg.getAllLogs fs).map (fun l => l.stepId)).Nodup →
          (lg.buildRunnerState fs none).stepIndex = r.index)) ∧
    ((∀ r ∈ lg.getAllLogs fs, ¬ 0 < r.index) → lg.getAllLogs fs ≠ [] →
      ∃ r, (lg.getAllLogs fs).getLast? = some r ∧
        (lg.buildRunnerState fs none).currentStepId = r.stepId ∧
        (((lg.getAllLogs fs).map (fun l => l.stepId)).Nodup →
          (lg.buildRunnerState fs none).stepIndex = r.index)) := by
  refine ⟨?_, ?_, ?_, ?_⟩
  · intro h
    simp [StepLogger.buildRunnerState, h]
  · intro id
    constructor
    · simp only [StepLogger.buildRunnerState, List.mem_map, List.mem_filter]
      constructor
      · rintro ⟨r, ⟨hr, hidx⟩, rfl⟩
        exact ⟨r, hr, rfl, by simpa using hidx⟩
      · rintro ⟨r, hr, rfl, hidx⟩
        exact ⟨r, ⟨hr, by simpa using hidx⟩, rfl⟩
    · simp only [StepLogger.buildRunnerState, List.mem_map, List.mem_filter]
      constructor
      · rintro ⟨r, ⟨hr, hfl⟩, rfl⟩
        refine ⟨r, hr, rfl, ?_⟩
        simpa [List.isEmpty_iff] using hfl
      · rintro ⟨r, hr, rfl, hfl⟩
        refine ⟨r, ⟨hr, ?_⟩, rfl⟩
        simpa [List.isEmpty_iff] using hfl
  · intro hex
    have hsome : ((lg.getAllLogs fs).reverse.find? (fun l => 0 < l.index)).isSome := by
      rw [List.find?_isSome]
      obtain ⟨r, hr, hidx⟩ := hex
      exact ⟨r, List.mem_reverse.mpr hr, by simpa using hidx⟩
    obtain ⟨r0, hfind⟩ := Option.isSome_iff_exists.mp hsome
    obtain ⟨m1, m2, hrev, hp, hm1⟩ := find?_split _ _ _ hfind
    have hlogs : lg.getAllLogs fs = m2.reverse ++ r0 :: m1.reverse := by
      have := congrArg List.reverse hrev
      simpa using this
    have hr0mem : r0 ∈ lg.getAllLogs fs := by
      rw [hlogs]; simp
    refine ⟨m2.reverse, r0, m1.reverse, hlogs, by simpa using hp, ?_, ?_, ?_⟩
    · intro r' hr'
      have := hm1 r' (List.mem_reverse.mp hr')
      simpa using this
    · simp [StepLogger.buildRunnerState, hfind]
    · intro hnd
      have hstepfind := find?_nodup_stepId (lg.getAllLogs fs) r0 hnd hr0mem
      simp [StepLogger.buildRunnerState, hfind, hstepfind]
  · intro hall hne
    have hnone : (lg.getAllLogs fs).reverse.find? (fun l => 0 < l.index) = none := by
      rw [List.find?_eq_none]
      intro x hx
      simpa using hall x (List.mem_reverse.mp hx)
    obtain ⟨r, hlast⟩ := Option.isSome_iff_exists.mp
      ((List.getLast?_isSome (l := lg.getAllLogs fs)).mpr hne)
    have hrmem : r ∈ lg.getAllLogs fs := List.mem_of_mem_getLast? hlast
    refine ⟨r, hlast, ?_, ?_⟩
    · simp [StepLogger.buildRunnerState, hnone, hlast]
    · intro hnd
      have hstepfind := find?_nodup_stepId (lg.getAllLogs fs) r hnd hrmem
      simp [StepLogger.buildRunnerState, hnone, hlast, hstepfind]

/-- Witness for C5: the two-record store of the source's own example. -/
theorem claim_C5_resume_state_witness :
    StepLogger.buildRunnerState ⟨"run2", true, true⟩ [] none = ⟨"", 0, [], [], []⟩ ∧
    (∃ l1 r l2,
      StepLogger.getAllLogs ⟨"run", true, true⟩
        [("run-step1.json", ⟨"step1", 0, [], 5, none⟩),
         ("run-step2.json", ⟨"step2", 10, [], 7, none⟩)] = l1 ++ r :: l2 ∧
      0 < r.index ∧ (∀ r' ∈ l2, ¬ 0 < r'.index) ∧
      (StepLogger.buildRunnerState ⟨"run", true, true⟩
        [("run-step1.json", ⟨"step1", 0, [], 5, none⟩),
         ("run-step2.json", ⟨"step2", 10, [], 7, none⟩)] none).currentStepId = r.stepId ∧
      (((StepLogger.getAllLogs ⟨"run", true, true⟩
        [("run-step1.json", ⟨"step1", 0, [], 5, none⟩),
         ("run-step2.json", ⟨"step2", 10, [], 7, none⟩)]).map (fun l => l.stepId)).Nodup →
        (StepLogger.buildRunnerState ⟨"run", true, true⟩
          [("run-step1.json", ⟨"step1", 0, [], 5, none⟩),
           ("run-step2.json", ⟨"step2", 10, [], 7, none⟩)] none).stepIndex = r.index)) := by
  constructor
  · exact (claim_C5_resume_state ⟨"run2", true, true⟩ []).1 (by decide)
  · exact (claim_C5_resume_state ⟨"run", true, true⟩ _).2.2.1
      ⟨⟨"step2", 10, [], 7, none⟩, by decide, by decide⟩


/-! ## C6 and C10: iteration controller -/

theorem todoIdxs_append (a b : List LEv) :
    todoIdxs (a ++ b) = todoIdxs a ++ todoIdxs b := by
  induction a with
  | nil => rfl
  | cons e rest ih => cases e <;> simp [todoIdxs, ih]

theorem mem_intsFrom (q : Int) : ∀ (r : Nat) (i : Int),
    q ∈ intsFrom i r ↔ i ≤ q ∧ q < i + r := by
  intro r
  induction r with
  | zero => intro i; simp [intsFrom]
  | succ r ih =>
    intro i
    simp only [intsFrom, List.mem_cons, ih (i + 1)]
    omega

theorem todoIdxs_if_setLog (c : Bool) (x : Int) :
    todoIdxs (if c then [LEv.setLog x] else []) = [] := by
  cases c <;> rfl

theorem todoIdxs_if_progress (c : Bool) (x y z : Int) :
    todoIdxs (if c then [LEv.progress x y z] else []) = [] := by
  cases c <;> rfl

theorem todoIdxs_if_failureCb (c : Bool) (x : Int) (e : String) (it : Option String) :
    todoIdxs (if c then [LEv.failureCb x e it] else []) = [] := by
  cases c <;> rfl

theorem tickLoop_todoIdxs (cfg : LoopCfg) (todo : Int → Except String Unit)
    (list : List String) (delay adjusted : Int) :
    ∀ (r : Nat) (i remTime : Int) (k : Nat),
      todoIdxs (tickLoop cfg todo list delay adjusted r i remTime k).1 =
        intsFrom i r := by
  intro r
  induction r with
  | zero =>
    intro i remTime k
    rcases h : cfg.hasSetLog <;> simp [tickLoop, todoIdxs, intsFrom, h]
  | succ r ih =>
    intro i remTime k
    rcases htodo : todo i with _ | err <;>
      simp [tickLoop, htodo, todoIdxs_append, todoIdxs, intsFrom,
        todoIdxs_if_setLog, todoIdxs_if_progress, todoIdxs_if_failureCb, ih (i + 1)]

/-- C10: with a current-position accessor reporting `p > 0` and effective
(capped) bound `L`, the loop starts at `p` but its terminal index is
`L − p`: the item callback runs exactly for the indices `p, …, L − p` in
increasing order, and when `p > L − p` no item callback runs at all and
the completion callback fires on the first tick, right after the persisted
index is reset to zero. -/
theorem claim_C10_resume_shifted_bound (cfg : LoopCfg) (p limit delay : Int)
    (todo : Int → Except String Unit) (list : List String)
    (hacc : cfg.getCurrentStepValue = some p) (hp : 0 < p) :
    (todoIdxs (loopDelay cfg limit todo delay 0 list).1 =
      intsFrom p ((effectiveLimit cfg limit - p + 1 - p).toNat)) ∧
    (∀ q : Int, q ∈ todoIdxs (loopDelay cfg limit todo delay 0 list).1 ↔
      p ≤ q ∧ q ≤ effectiveLimit cfg limit - p) ∧
    (effectiveLimit cfg limit - p < p →
      (loopDelay cfg limit todo delay 0 list).1 =
        (if cfg.hasSetLog then [LEv.setLog 0] else []) ++ [LEv.done]) := by
  have hunfold : loopDelay cfg limit todo delay 0 list =
      tickLoop cfg todo list delay (effectiveLimit cfg limit - p)
        ((effectiveLimit cfg limit - p + 1 - p).toNat) p
        ((effectiveLimit cfg limit - p + 2) * delay) 0 := by
    simp [loopDelay, hacc, hp]
  have hform : todoIdxs (loopDelay cfg limit todo delay 0 list).1 =
      intsFrom p ((effectiveLimit cfg limit - p + 1 - p).toNat) := by
    rw [hunfold]
    exact tickLoop_todoIdxs cfg todo list delay _ _ p _ 0
  refine ⟨hform, ?_, ?_⟩
  · intro q
    rw [hform, mem_intsFrom]
    omega
  · intro hlt
    have hzero : (effectiveLimit cfg limit - p + 1 - p).toNat = 0 := by omega
    rw [hunfold, hzero]
    rfl

/-- Witness for C10: bound 5, position 2 runs indices 2 and 3; position 4
runs nothing and completes on the first tick. -/
theorem claim_C10_resume_shifted_bound_witness :
    (todoIdxs (loopDelay
        { hasSetLog := true, getCurrentStepValue := some 2 } 5
        (fun _ => Except.ok ()) 1000 0 []).1 = [2, 3]) ∧
    (loopDelay { hasSetLog := true, getCurrentStepValue := some 4 } 5
        (fun _ => Except.ok ()) 1000 0 []).1 = [LEv.setLog 0, LEv.done] := by
  constructor
  · have h := (claim_C10_resume_shifted_bound
      { hasSetLog := true, getCurrentStepValue := some 2 } 2 5 1000
      (fun _ => Except.ok ()) [] (by decide) (by decide)).1
    rw [h]
    rfl
  · have h := (claim_C10_resume_shifted_bound
      { hasSetLog := true, getCurrentStepValue := some 4 } 4 5 1000
      (fun _ => Except.ok ()) [] (by decide) (by decide)).2.2 (by decide)
    rw [h]
    rfl

/-- C6: an iteration controller with bound `5` (below the development-mode
cap) whose item callback fails exactly on index `2` attempts every index
`0..5`, captures exactly one loop failure — index `2`, carrying the error,
the item at index `2` and a timestamp — while invoking the failure
callback and continuing; on completion it resets the persisted step index
to zero and then invokes the completion callback exactly once. -/
theorem claim_C6_failure_isolation (todo : Int → Except String Unit)
    (list : List String) (delay : Int) (e : String)
    (h2 : todo 2 = .error e) (hok : ∀ i, i ≠ 2 → todo i = .ok ()) :
    loopDelay { hasOnFailure := true, hasSetLog := true } 5 todo delay 0 list =
      ([LEv.todoCall 0, LEv.setLog 0, LEv.todoCall 1, LEv.setLog 1,
        LEv.todoCall 2, LEv.failureCb 2 e (listGetI list 2),
        LEv.todoCall 3, LEv.setLog 3, LEv.todoCall 4, LEv.setLog 4,
        LEv.todoCall 5, LEv.setLog 5, LEv.setLog 0, LEv.done],
       [⟨2, e, listGetI list 2, 2⟩]) ∧
    todoIdxs (loopDelay { hasOnFailure := true, hasSetLog := true }
        5 todo delay 0 list).1 = [0, 1, 2, 3, 4, 5] ∧
    ((loopDelay { hasOnFailure := true, hasSetLog := true }
        5 todo delay 0 list).1.count LEv.done) = 1 := by
  have h0 := hok 0 (by decide)
  have h1 := hok 1 (by decide)
  have h3 := hok 3 (by decide)
  have h4 := hok 4 (by decide)
  have h5 := hok 5 (by decide)
  have hmain : loopDelay { hasOnFailure := true, hasSetLog := true } 5 todo delay 0 list =
      ([LEv.todoCall 0, LEv.setLog 0, LEv.todoCall 1, LEv.setLog 1,
        LEv.todoCall 2, LEv.failureCb 2 e (listGetI list 2),
        LEv.todoCall 3, LEv.setLog 3, LEv.todoCall 4, LEv.setLog 4,
        LEv.todoCall 5, LEv.setLog 5, LEv.setLog 0, LEv.done],
       [⟨2, e, listGetI list 2, 2⟩]) := by
    simp [loopDelay, effectiveLimit, DEFAULT_MAX_ITEMS, tickLoop,
      h0, h1, h2, h3, h4, h5]
  refine ⟨hmain, ?_, ?_⟩
  · rw [hmain]
    rfl
  · rw [hmain]
    rfl

/-- Witness for C6: the callback failing exactly on index `2`. -/
theorem claim_C6_failure_isolation_witness :
    loopDelay { hasOnFailure := true, hasSetLog := true } 5
        (fun i => if i = 2 then .error "boom" else .ok ()) 1000 0 ["a", "b", "c"] =
      ([LEv.todoCall 0, LEv.setLog 0, LEv.todoCall 1, LEv.setLog 1,
        LEv.todoCall 2, LEv.failureCb 2 "boom" (some "c"),
        LEv.todoCall 3, LEv.setLog 3, LEv.todoCall 4, LEv.setLog 4,
        LEv.todoCall 5, LEv.setLog 5, LEv.setLog 0, LEv.done],
       [⟨2, "boom", some "c", 2⟩]) := by
  have h := (claim_C6_failure_isolation
    (fun i => if i = 2 then .error "boom" else .ok ()) ["a", "b", "c"] 1000 "boom"
    rfl (fun i hi => by simp [hi])).1
  rw [h]
  rfl

/-! ## Runner execution lemmas -/

theorem executeStep_ok (lc : RunnerLifecycle) (step : PipelineStep) (ctx : Ctx)
    (i total : Nat) (c2 : Ctx) (h : step.run ctx = .ok c2) :
    executeStep lc step ctx i total = (successPattern lc step ctx.data, .ok c2) := by
  simp [executeStep, h, successPattern]

theorem executeStep_err (lc : RunnerLifecycle) (step : PipelineStep) (ctx : Ctx)
    (i total : Nat) (e : String) (h : step.run ctx = .error e) :
    executeStep lc step ctx i total =
      ((if lc.hasBeforeStep then [Ev.runnerBefore step.id] else []) ++
       (if step.hasBeforeStep then [Ev.stepBefore step.id] else []) ++
       [Ev.bodyRun step.id ctx.data] ++
       (if lc.hasOnError then [Ev.runnerError ⟨step.id, ctx.data, i, total, e⟩] else []) ++
       (if step.hasOnError then [Ev.stepError ⟨step.id, ctx.data, i, total, e⟩] else []),
       .error e) := by
  simp [executeStep, h]

theorem runLoop_success (lc : RunnerLifecycle) (total : Nat) :
    ∀ (l : List PipelineStep) (c : Ctx) (i : Nat) (comp fail : List String),
      (∀ s ∈ l, ∀ cc : Ctx, ∃ c2, s.run cc = .ok c2) →
      runLoop lc total l c i comp fail =
        ((l.zip (ctxTrail l c)).flatMap (fun p => successPattern lc p.1 p.2.data),
         .ok (comp ++ stepIds l, fail)) := by
  intro l
  induction l with
  | nil => intro c i comp fail _; simp [runLoop, stepIds]
  | cons s rest ih =>
    intro c i comp fail hb
    obtain ⟨c2, hrun⟩ := hb s (by simp) c
    have hnext : nextCtx s c = c2 := by simp [nextCtx, hrun]
    have hrest : ∀ t ∈ rest, ∀ cc : Ctx, ∃ c3, t.run cc = .ok c3 :=
      fun t ht => hb t (by simp [ht])
    simp only [runLoop, executeStep_ok lc s c i total c2 hrun,
      ih c2 (i + 1) (comp ++ [s.id]) fail hrest, ctxTrail, hnext, List.zip_cons_cons,
      List.flatMap_cons, stepIds, List.map_cons]
    simp

theorem runLoop_failure (lc : RunnerLifecycle) (total : Nat) :
    ∀ (pre : List PipelineStep) (c : Ctx) (fstep : PipelineStep)
      (post : List PipelineStep) (i : Nat) (comp fail : List String)
      (c1 : Ctx) (e : String),
      applyBodies pre c = .ok c1 → fstep.run c1 = .error e →
      runLoop lc total (pre ++ fstep :: post) c i comp fail =
        ((pre.zip (ctxTrail pre c)).flatMap (fun p => successPattern lc p.1 p.2.data) ++
         ((if lc.hasBeforeStep then [Ev.runnerBefore fstep.id] else []) ++
          (if fstep.hasBeforeStep then [Ev.stepBefore fstep.id] else []) ++
          [Ev.bodyRun fstep.id c1.data] ++
          (if lc.hasOnError then
            [Ev.runnerError ⟨fstep.id, c1.data, i + pre.length, total, e⟩] else []) ++
          (if fstep.hasOnError then
            [Ev.stepError ⟨fstep.id, c1.data, i + pre.length, total, e⟩] else []) ++
          (if lc.hasOnError then
            [Ev.runnerError ⟨fstep.id, c1.data, i + pre.length, total, e⟩] else []) ++
          (if fstep.hasOnError then
            [Ev.stepError ⟨fstep.id, c1.data, i + pre.length, total, e⟩] else [])),
         .error (.stepFailed e (comp ++ stepIds pre) (fail ++ [fstep.id]))) := by
  intro pre
  induction pre with
  | nil =>
    intro c fstep post i comp fail c1 e hpre herr
    simp only [applyBodies] at hpre
    cases hpre
    simp only [List.nil_append, runLoop, executeStep_err lc fstep c i total e herr,
      ctxTrail, List.zip_nil_right, List.flatMap_nil, stepIds, List.map_nil,
      List.append_nil, List.length_nil, Nat.add_zero]
  | cons s rest ih =>
    intro c fstep post i comp fail c1 e hpre herr
    simp only [applyBodies] at hpre
    rcases hrun : s.run c with _ | c2
    · rw [hrun] at hpre; cases hpre
    · rw [hrun] at hpre
      simp only at hpre
      have hnext : nextCtx s c = c2 := by simp [nextCtx, hrun]
      have hrec := ih c2 fstep post (i + 1) (comp ++ [s.id]) fail c1 e hpre herr
      have harith : i + 1 + rest.length = i + (rest.length + 1) := by omega
      simp only [List.cons_append, runLoop, executeStep_ok lc s c i total c2 hrun,
        List.append_eq, hrec, ctxTrail, hnext, List.zip_cons_cons, List.flatMap_cons,
        stepIds, List.map_cons, List.length_cons, harith]
      simp

/-! ## C8: hook fan-out ordering -/

theorem bodyIds_append (a b : List Ev) : bodyIds (a ++ b) = bodyIds a ++ bodyIds b := by
  induction a with
  | nil => rfl
  | cons e rest ih => cases e <;> simp [bodyIds, ih]

theorem bodyIds_successPattern (lc : RunnerLifecycle) (s : PipelineStep)
    (d : List (String × PMap)) : bodyIds (successPattern lc s d) = [s.id] := by
  rcases h1 : lc.hasBeforeStep <;> rcases h2 : s.hasBeforeStep <;>
    rcases h3 : lc.hasAfterStep <;> rcases h4 : s.hasAfterStep <;>
    simp [successPattern, h1, h2, h3, h4, bodyIds, bodyIds_append]

theorem bodyIds_zipTrail (lc : RunnerLifecycle) :
    ∀ (l : List PipelineStep) (c : Ctx),
      bodyIds ((l.zip (ctxTrail l c)).flatMap (fun p => successPattern lc p.1 p.2.data)) =
        stepIds l := by
  intro l
  induction l with
  | nil => intro c; simp [stepIds, bodyIds]
  | cons s rest ih =>
    intro c
    simp [ctxTrail, bodyIds_append, bodyIds_successPattern, ih (nextCtx s c), stepIds]

/-- C8: on every step executed without error by `run()`/`resume()`, the
hooks fire as: runner-level `beforeStep`, step-level `beforeStep`, the
step body, runner-level `afterStep`, step-level `afterStep` — runner-level
hooks always precede the corresponding step-level hooks (the whole trace
is the per-step `successPattern`, concatenated in execution order). -/
theorem claim_C8_hook_ordering (lc : RunnerLifecycle) (steps ordered : List PipelineStep)
    (hres : resolveDependencies steps = .ok ordered)
    (hbodies : ∀ s ∈ ordered, ∀ cc : Ctx, ∃ c2, s.run cc = .ok c2) :
    (runnerRun lc steps none =
      ((ordered.zip (ctxTrail ordered ⟨[]⟩)).flatMap
        (fun p => successPattern lc p.1 p.2.data),
       .ok ⟨ordered.length, stepIds ordered, []⟩)) ∧
    (∀ state : RunnerState, 0 ≤ state.stepIndex →
      state.stepIndex.toNat < ordered.length →
      runnerResume lc steps state =
        (((ordered.drop state.stepIndex.toNat).zip
            (ctxTrail (ordered.drop state.stepIndex.toNat) ⟨objMerge [] state.payload⟩)).flatMap
          (fun p => successPattern lc p.1 p.2.data),
         .ok ⟨ordered.length,
           state.completedStepIds ++ stepIds (ordered.drop state.stepIndex.toNat),
           state.failedStepIds⟩)) := by
  constructor
  · have h := runLoop_success lc ordered.length ordered ⟨[]⟩ 0 [] [] hbodies
    simp [runnerRun, hres, h, Except.map]
  · intro state h0 hlt
    have hcond : ¬(state.stepIndex < 0 ∨ (ordered.length : Int) ≤ state.stepIndex) := by
      omega
    have hdropb : ∀ s ∈ ordered.drop state.stepIndex.toNat, ∀ cc : Ctx,
        ∃ c2, s.run cc = .ok c2 :=
      fun s hs => hbodies s (List.drop_subset _ _ hs)
    have h := runLoop_success lc ordered.length (ordered.drop state.stepIndex.toNat)
      ⟨objMerge [] state.payload⟩ state.stepIndex.toNat
      state.completedStepIds state.failedStepIds hdropb
    simp [runnerResume, hres, hcond, h, Except.map]

/-- Witness for C8: a two-step pipeline with every hook defined. -/
theorem claim_C8_hook_ordering_witness :
    runnerRun lcAll [hookStepA, hookStepB] none =
      ([Ev.runnerBefore "A", Ev.stepBefore "A", Ev.bodyRun "A" [],
        Ev.runnerAfter "A", Ev.stepAfter "A",
        Ev.runnerBefore "B", Ev.stepBefore "B", Ev.bodyRun "B" [],
        Ev.runnerAfter "B", Ev.stepAfter "B"],
       .ok ⟨2, ["A", "B"], []⟩) := by
  have hb : ∀ s ∈ [hookStepA, hookStepB], ∀ cc : Ctx, ∃ c2, s.run cc = .ok c2 := by
    intro s hs cc
    simp only [List.mem_cons, List.not_mem_nil, or_false] at hs
    rcases hs with rfl | rfl
    · exact ⟨cc, rfl⟩
    · exact ⟨cc, rfl⟩
  have h := (claim_C8_hook_ordering lcAll [hookStepA, hookStepB] [hookStepA, hookStepB]
    rfl hb).1
  rw [h]
  simp [lcAll, hookStepA, hookStepB, ctxTrail, nextCtx, successPattern, stepIds]

/-! ## C3: step-body failure propagation -/

/-- C3: for every pipeline and every step whose body throws on the context
it receives, `run()` fires the `onError` hooks runner-level first, then
step-level (the source does so twice: once inside `executeStep` and once
in the loop's catch), with an error event carrying the step, the context
data, the zero-based step index, the total step count and the error; the
error then propagates to the caller immediately: no subsequent step's body
is invoked, and the `completedSteps` accumulated at that point contains
exactly the steps fully finished before the failing one. -/
theorem claim_C3_error_propagation (lc : RunnerLifecycle)
    (steps ordered pre post : List PipelineStep) (fstep : PipelineStep)
    (c1 : Ctx) (e : String)
    (hres : resolveDependencies steps = .ok ordered)
    (hsplit : ordered = pre ++ fstep :: post)
    (hpre : applyBodies pre ⟨[]⟩ = .ok c1)
    (herr : fstep.run c1 = .error e)
    (hlc : lc.hasOnError = true) (hstep : fstep.hasOnError = true) :
    runnerRun lc steps none =
      ((pre.zip (ctxTrail pre ⟨[]⟩)).flatMap (fun p => successPattern lc p.1 p.2.data) ++
       ((if lc.hasBeforeStep then [Ev.runnerBefore fstep.id] else []) ++
        (if fstep.hasBeforeStep then [Ev.stepBefore fstep.id] else []) ++
        [Ev.bodyRun fstep.id c1.data] ++
        [Ev.runnerError ⟨fstep.id, c1.data, pre.length, ordered.length, e⟩,
         Ev.stepError ⟨fstep.id, c1.data, pre.length, ordered.length, e⟩,
         Ev.runnerError ⟨fstep.id, c1.data, pre.length, ordered.length, e⟩,
         Ev.stepError ⟨fstep.id, c1.data, pre.length, ordered.length, e⟩]),
       .error (.stepFailed e (stepIds pre) [fstep.id])) ∧
    bodyIds (runnerRun lc steps none).1 = stepIds pre ++ [fstep.id] := by
  have h := runLoop_failure lc ordered.length pre ⟨[]⟩ fstep post 0 [] [] c1 e hpre herr
  have hmain : runnerRun lc steps none =
      ((pre.zip (ctxTrail pre ⟨[]⟩)).flatMap (fun p => successPattern lc p.1 p.2.data) ++
       ((if lc.hasBeforeStep then [Ev.runnerBefore fstep.id] else []) ++
        (if fstep.hasBeforeStep then [Ev.stepBefore fstep.id] else []) ++
        [Ev.bodyRun fstep.id c1.data] ++
        [Ev.runnerError ⟨fstep.id, c1.data, pre.length, ordered.length, e⟩,
         Ev.stepError ⟨fstep.id, c1.data, pre.length, ordered.length, e⟩,
         Ev.runnerError ⟨fstep.id, c1.data, pre.length, ordered.length, e⟩,
         Ev.stepError ⟨fstep.id, c1.data, pre.length, ordered.length, e⟩]),
       .error (.stepFailed e (stepIds pre) [fstep.id])) := by
    rw [runnerRun, hres]
    simp only [hsplit] at h ⊢
    rw [h]
    simp [hlc, hstep, Except.map]
  refine ⟨hmain, ?_⟩
  rw [hmain]
  simp only [bodyIds_append, bodyIds_zipTrail]
  rcases hb1 : lc.hasBeforeStep <;> rcases hb2 : fstep.hasBeforeStep <;>
    simp [bodyIds, bodyIds_append, hb1, hb2]

/-- Witness for C3: step `B`'s body throws after `A` completed. -/
theorem claim_C3_error_propagation_witness :
    runnerRun lcAll [okStepA, failStepB] none =
      ([Ev.runnerBefore "A", Ev.bodyRun "A" [], Ev.runnerAfter "A",
        Ev.runnerBefore "B", Ev.bodyRun "B" [],
        Ev.runnerError ⟨"B", [], 1, 2, "boom"⟩, Ev.stepError ⟨"B", [], 1, 2, "boom"⟩,
        Ev.runnerError ⟨"B", [], 1, 2, "boom"⟩, Ev.stepError ⟨"B", [], 1, 2, "boom"⟩],
       .error (.stepFailed "boom" ["A"] ["B"])) := by
  have h := (claim_C3_error_propagation lcAll [okStepA, failStepB] [okStepA, failStepB]
    [okStepA] [] failStepB ⟨[]⟩ "boom" rfl rfl rfl rfl rfl rfl).1
  rw [h]
  simp [lcAll, okStepA, failStepB, ctxTrail, nextCtx, successPattern, stepIds]

/-! ## C9: resume index validation -/

theorem runLoop_cons_head (lc : RunnerLifecycle) (total : Nat) (s : PipelineStep)
    (rest : List PipelineStep) (c : Ctx) (i : Nat) (comp fail : List String) :
    ∃ tail, (runLoop lc total (s :: rest) c i comp fail).1 =
      (if lc.hasBeforeStep then [Ev.runnerBefore s.id] else []) ++
      (if s.hasBeforeStep then [Ev.stepBefore s.id] else []) ++
      [Ev.bodyRun s.id c.data] ++ tail := by
  rcases hrun : s.run c with e | c2
  · refine ⟨(if lc.hasOnError then
        [Ev.runnerError ⟨s.id, c.data, i, total, e⟩] else []) ++
      (if s.hasOnError then [Ev.stepError ⟨s.id, c.data, i, total, e⟩] else []) ++
      (if lc.hasOnError then [Ev.runnerError ⟨s.id, c.data, i, total, e⟩] else []) ++
      (if s.hasOnError then [Ev.stepError ⟨s.id, c.data, i, total, e⟩] else []), ?_⟩
    simp [runLoop, executeStep_err lc s c i total e hrun]
  · refine ⟨(if lc.hasAfterStep then [Ev.runnerAfter s.id] else []) ++
      (if s.hasAfterStep then [Ev.stepAfter s.id] else []) ++
      (runLoop lc total rest c2 (i + 1) (comp ++ [s.id]) fail).1, ?_⟩
    simp [runLoop, executeStep_ok lc s c i total c2 hrun, successPattern]

/-- C9: a `resume` whose `stepIndex` lies outside `[0, orderedSteps.length)`
fails with the invalid-step-index error before executing any step body
(the trace is empty); a `stepIndex` inside that interval proceeds, and the
first executed step receives a context whose `data` is seeded from the
resume state's `payload`. -/
theorem claim_C9_resume_validation (lc : RunnerLifecycle)
    (steps ordered : List PipelineStep) (state : RunnerState)
    (hres : resolveDependencies steps = .ok ordered) :
    ((state.stepIndex < 0 ∨ (ordered.length : Int) ≤ state.stepIndex) →
      runnerResume lc steps state = ([], .error (.invalidStepIndex state.stepIndex))) ∧
    (0 ≤ state.stepIndex →
      ∀ hlt : state.stepIndex.toNat < ordered.length,
      ∃ tail, (runnerResume lc steps state).1 =
        (if lc.hasBeforeStep then
          [Ev.runnerBefore (ordered.get ⟨state.stepIndex.toNat, hlt⟩).id] else []) ++
        (if (ordered.get ⟨state.stepIndex.toNat, hlt⟩).hasBeforeStep then
          [Ev.stepBefore (ordered.get ⟨state.stepIndex.toNat, hlt⟩).id] else []) ++
        [Ev.bodyRun (ordered.get ⟨state.stepIndex.toNat, hlt⟩).id
          (objMerge [] state.payload)] ++ tail) := by
  constructor
  · intro hcond
    simp [runnerResume, hres, hcond]
  · intro h0 hlt
    have hcond : ¬(state.stepIndex < 0 ∨ (ordered.length : Int) ≤ state.stepIndex) := by
      omega
    have hdrop : ordered.drop state.stepIndex.toNat =
        ordered.get ⟨state.stepIndex.toNat, hlt⟩ :: ordered.drop (state.stepIndex.toNat + 1) := by
      rw [List.drop_eq_getElem_cons hlt]
      rfl
    obtain ⟨tail, htail⟩ := runLoop_cons_head lc ordered.length
      (ordered.get ⟨state.stepIndex.toNat, hlt⟩) (ordered.drop (state.stepIndex.toNat + 1))
      ⟨objMerge [] state.payload⟩ state.stepIndex.toNat
      state.completedStepIds state.failedStepIds
    refine ⟨tail, ?_⟩
    simp only [runnerResume, hres, if_neg hcond, hdrop]
    exact htail

/-- Witness for C9: a one-step pipeline rejected at index 5 and resumed at
index 0 with a payload-seeded context. -/
theorem claim_C9_resume_validation_witness :
    runnerResume lcNone [okStepA] ⟨"", 5, [], [], []⟩ =
      ([], .error (.invalidStepIndex 5)) ∧
    ∃ tail, (runnerResume lcNone [okStepA]
        ⟨"", 0, [], [], [("k", [("x", "y")])]⟩).1 =
      [Ev.bodyRun "A" [("k", [("x", "y")])]] ++ tail := by
  constructor
  · exact (claim_C9_resume_validation lcNone [okStepA] [okStepA] ⟨"", 5, [], [], []⟩
      rfl).1 (by right; decide)
  · obtain ⟨tail, htail⟩ := (claim_C9_resume_validation lcNone [okStepA] [okStepA]
      ⟨"", 0, [], [], [("k", [("x", "y")])]⟩ rfl).2 (by decide) (by decide)
    exact ⟨tail, by simpa [lcNone, okStepA, objMerge, alSet] using htail⟩

/-! ## Resolver: map-construction characterizations (C1, C2) -/

theorem alGet_append {α : Type} (l1 l2 : List (String × α)) (k : String) :
    alGet (l1 ++ l2) k =
      match alGet l1 k with
      | some v => some v
      | none => alGet l2 k := by
  induction l1 with
  | nil => simp [alGet_nil]
  | cons p rest ih =>
    obtain ⟨k1, v1⟩ := p
    by_cases h : k1 == k <;> simp [alGet_cons, h, ih]

theorem alSet_of_none {α : Type} (l : List (String × α)) (k : String) (v : α)
    (h : alGet l k = none) : alSet l k v = l ++ [(k, v)] := by
  induction l with
  | nil => rfl
  | cons p rest ih =>
    obtain ⟨k1, v1⟩ := p
    rcases hk : (k1 == k) with _ | _
    · rw [alGet_cons, hk] at h
      simp only [Bool.false_eq_true, if_false] at h
      simp [alSet, hk, ih h]
    · rw [alGet_cons, hk] at h
      simp at h

theorem alSet_keys {α : Type} (l : List (String × α)) (k : String) (v : α)
    (h : (alGet l k).isSome) : (alSet l k v).map Prod.fst = l.map Prod.fst := by
  induction l with
  | nil => simp [alGet_nil] at h
  | cons p rest ih =>
    obtain ⟨k1, v1⟩ := p
    rcases hk : (k1 == k) with _ | _
    · rw [alGet_cons, hk] at h
      simp only [Bool.false_eq_true, if_false] at h
      simp [alSet, hk, ih h]
    · have : k1 = k := by simpa using hk
      subst this
      simp [alSet]

theorem alGet_mem {α : Type} (l : List (String × α)) (k : String) (v : α)
    (h : alGet l k = some v) : (k, v) ∈ l := by
  induction l with
  | nil => simp [alGet_nil] at h
  | cons p rest ih =>
    obtain ⟨k1, v1⟩ := p
    rcases hk : (k1 == k) with _ | _
    · rw [alGet_cons, hk] at h
      simp only [Bool.false_eq_true, if_false] at h
      exact List.mem_cons_of_mem _ (ih h)
    · have hk' : k1 = k := by simpa using hk
      rw [alGet_cons, hk] at h
      simp only [if_true] at h
      cases h
      subst hk'
      exact List.mem_cons_self _ _

theorem stepIds_cons (t : PipelineStep) (rest : List PipelineStep) :
    stepIds (t :: rest) = t.id :: stepIds rest := rfl

theorem mem_alGet {α : Type} (l : List (String × α)) (k : String) (v : α)
    (hnd : (l.map Prod.fst).Nodup) (h : (k, v) ∈ l) : alGet l k = some v := by
  induction l with
  | nil => simp at h
  | cons p rest ih =>
    obtain ⟨k1, v1⟩ := p
    rcases List.mem_cons.mp h with h' | h'
    · cases h'
      simp [alGet_cons]
    · have hk1 : k1 ≠ k := by
        intro hcontra
        subst hcontra
        have hmem : k1 ∈ rest.map Prod.fst := List.mem_map.mpr ⟨(k1, v), h', rfl⟩
        exact (List.nodup_cons.mp (by simpa using hnd)).1 hmem
      rw [alGet_cons]
      rw [if_neg (by simpa using hk1)]
      exact ih (List.nodup_cons.mp (by simpa using hnd)).2 h'

theorem alGet_isSome_mem_keys {α : Type} (l : List (String × α)) (k : String) :
    (alGet l k).isSome ↔ k ∈ l.map Prod.fst := by
  induction l with
  | nil => simp [alGet_nil]
  | cons p rest ih =>
    obtain ⟨k1, v1⟩ := p
    rcases hk : (k1 == k) with _ | _
    · have hne : k1 ≠ k := by simpa using hk
      rw [List.map_cons, alGet_cons, hk]
      simp only [Bool.false_eq_true, if_false]
      rw [ih]
      constructor
      · exact fun h => List.mem_cons_of_mem _ h
      · intro h
        rcases List.mem_cons.mp h with h | h
        · exact absurd h.symm hne
        · exact h
    · have heq : k1 = k := by simpa using hk
      subst heq
      simp [alGet_cons]

theorem mem_filter_map_fst {α : Type} (l : List (String × α)) (x : String) (p : α → Bool)
    (hnd : (l.map Prod.fst).Nodup) :
    (x ∈ (l.filter (fun q => p q.2)).map Prod.fst) ↔
      ∃ v, alGet l x = some v ∧ p v = true := by
  constructor
  · intro hx
    obtain ⟨q, hmem, hq⟩ := List.mem_map.mp hx
    obtain ⟨k, v⟩ := q
    cases hq
    have h1 := (List.mem_filter.mp hmem).1
    have h2 := (List.mem_filter.mp hmem).2
    exact ⟨v, mem_alGet l k v hnd h1, h2⟩
  · rintro ⟨v, hget, hp⟩
    exact List.mem_map.mpr ⟨(x, v), List.mem_filter.mpr ⟨alGet_mem l x v hget, hp⟩, rfl⟩

theorem alGet_map_pair {β : Type} (f : PipelineStep → β) :
    ∀ (steps : List PipelineStep) (s : PipelineStep),
      (stepIds steps).Nodup → s ∈ steps →
      alGet (steps.map (fun t => (t.id, f t))) s.id = some (f s) := by
  intro steps
  induction steps with
  | nil => intro s _ h; simp at h
  | cons t rest ih =>
    intro s hnd hs
    rw [stepIds_cons] at hnd
    obtain ⟨hni, hnd'⟩ := List.nodup_cons.mp hnd
    rcases List.mem_cons.mp hs with h' | h'
    · subst h'
      simp [alGet_cons]
    · have hne : t.id ≠ s.id := by
        intro hcontra
        exact hni (hcontra ▸ List.mem_map.mpr ⟨s, h', rfl⟩)
      simp only [List.map_cons, alGet_cons]
      rw [if_neg (by simpa using hne)]
      exact ih s hnd' h'

theorem alGet_map_pair_isSome {β : Type} (f : PipelineStep → β)
    (steps : List PipelineStep) (x : String) :
    (alGet (steps.map (fun t => (t.id, f t))) x).isSome ↔ x ∈ stepIds steps := by
  rw [alGet_isSome_mem_keys]
  simp [stepIds, List.map_map, Function.comp]

theorem buildMaps_go (steps : List PipelineStep) :
    ∀ (a : List (String × PipelineStep)) (b : List (String × Int))
      (c : List (String × List String)),
      (∀ s ∈ steps, alGet a s.id = none ∧ alGet b s.id = none ∧ alGet c s.id = none) →
      (stepIds steps).Nodup →
      steps.foldl (fun acc step =>
          (alSet acc.1 step.id step, alSet acc.2.1 step.id 0, alSet acc.2.2 step.id []))
        (a, b, c) =
        (a ++ steps.map (fun s => (s.id, s)),
         b ++ steps.map (fun s => (s.id, (0 : Int))),
         c ++ steps.map (fun s => (s.id, ([] : List String)))) := by
  induction steps with
  | nil => intro a b c _ _; simp
  | cons s rest ih =>
    intro a b c hfresh hnd
    obtain ⟨ha, hb, hc⟩ := hfresh s (List.mem_cons_self _ _)
    rw [stepIds_cons] at hnd
    obtain ⟨hsid, hnd'⟩ := List.nodup_cons.mp hnd
    have hfresh' : ∀ t ∈ rest, alGet (a ++ [(s.id, s)]) t.id = none ∧
        alGet (b ++ [(s.id, (0 : Int))]) t.id = none ∧
        alGet (c ++ [(s.id, ([] : List String))]) t.id = none := by
      intro t ht
      have htne : s.id ≠ t.id := by
        intro hcontra
        exact hsid (hcontra ▸ List.mem_map.mpr ⟨t, ht, rfl⟩)
      obtain ⟨ha', hb', hc'⟩ := hfresh t (List.mem_cons_of_mem _ ht)
      refine ⟨?_, ?_, ?_⟩ <;>
        · rw [alGet_append]
          simp [ha', hb', hc', alGet_cons, alGet_nil, htne]
    simp only [List.foldl_cons, alSet_of_none _ _ _ ha, alSet_of_none _ _ _ hb,
      alSet_of_none _ _ _ hc]
    rw [ih _ _ _ hfresh' hnd']
    simp

theorem buildMaps_eq (steps : List PipelineStep) (hnd : (stepIds steps).Nodup) :
    buildMaps steps =
      (steps.map (fun s => (s.id, s)),
       steps.map (fun s => (s.id, (0 : Int))),
       steps.map (fun s => (s.id, ([] : List String)))) := by
  have := buildMaps_go steps [] [] [] (by intro s _; simp [alGet_nil]) hnd
  simpa [buildMaps] using this

theorem addStepEdges_missing (sm : List (String × PipelineStep)) (sid : String) :
    ∀ (dpre : List String) (d : String) (dsuf : List String)
      (D : List (String × Int)) (G : List (String × List String)),
      (∀ x ∈ dpre, (alGet sm x).isSome) → (alGet sm d).isSome = false →
      addStepEdges sm sid (dpre ++ d :: dsuf) D G = .error (.missingDep d sid) := by
  intro dpre
  induction dpre with
  | nil =>
    intro d dsuf D G _ hd
    simp [addStepEdges, hd]
  | cons x rest ih =>
    intro d dsuf D G hall hd
    have hx : (alGet sm x).isSome := hall x (List.mem_cons_self _ _)
    simp only [List.cons_append, addStepEdges, hx, if_true]
    exact ih d dsuf _ _ (fun y hy => hall y (List.mem_cons_of_mem _ hy)) hd

theorem addStepEdges_spec (sm : List (String × PipelineStep)) (sid : String) :
    ∀ (deps : List String) (D : List (String × Int)) (G : List (String × List String)),
      (∀ d ∈ deps, (alGet sm d).isSome) →
      (alGet D sid).isSome →
      (∀ d, (alGet sm d).isSome → (alGet G d).isSome) →
      ∃ D' G', addStepEdges sm sid deps D G = .ok (D', G') ∧
        alGet D' sid = (alGet D sid).map (fun v : Int => v + (deps.length : Int)) ∧
        (∀ k, k ≠ sid → alGet D' k = alGet D k) ∧
        (∀ k, alGet G' k = (alGet G k).map (fun l => l ++ List.replicate (deps.count k) sid)) ∧
        D'.map Prod.fst = D.map Prod.fst ∧ G'.map Prod.fst = G.map Prod.fst := by
  intro deps
  induction deps with
  | nil =>
    intro D G _ _ _
    refine ⟨D, G, rfl, ?_, fun _ _ => rfl, ?_, rfl, rfl⟩
    · cases alGet D sid <;> simp
    · intro k
      cases alGet G k <;> simp
  | cons d rest ih =>
    intro D G hdeps hDsid hGsm
    have hd : (alGet sm d).isSome := hdeps d (List.mem_cons_self _ _)
    have hGd : (alGet G d).isSome := hGsm d hd
    obtain ⟨gl, hgl⟩ := Option.isSome_iff_exists.mp hGd
    obtain ⟨dv, hdv⟩ := Option.isSome_iff_exists.mp hDsid
    have hstepeq : addStepEdges sm sid (d :: rest) D G =
        addStepEdges sm sid rest (alSet D sid (dv + 1)) (alSet G d (gl ++ [sid])) := by
      simp [addStepEdges, hd, hgl, hdv]
    have hD1sid : (alGet (alSet D sid (dv + 1)) sid).isSome := by
      rw [alGet_alSet_self]; rfl
    have hG1sm : ∀ x, (alGet sm x).isSome → (alGet (alSet G d (gl ++ [sid])) x).isSome := by
      intro x hx
      by_cases hxd : x = d
      · subst hxd; rw [alGet_alSet_self]; rfl
      · rw [alGet_alSet_ne _ _ _ _ hxd]; exact hGsm x hx
    obtain ⟨D', G', hrun, hD'sid, hD'ne, hG', hDkeys, hGkeys⟩ :=
      ih (alSet D sid (dv + 1)) (alSet G d (gl ++ [sid]))
        (fun x hx => hdeps x (List.mem_cons_of_mem _ hx)) hD1sid hG1sm
    refine ⟨D', G', by rw [hstepeq]; exact hrun, ?_, ?_, ?_, ?_, ?_⟩
    · rw [hD'sid, alGet_alSet_self, hdv]
      have harith : dv + 1 + (rest.length : Int) = dv + ((d :: rest).length : Int) := by
        simp only [List.length_cons]
        push_cast
        ring
      simp [harith]
    · intro k hk
      rw [hD'ne k hk, alGet_alSet_ne D sid k _ (by exact hk)]
    · intro k
      by_cases hkd : k = d
      · subst hkd
        rw [hG' k, alGet_alSet_self, hgl, List.count_cons_self]
        simp [List.replicate_succ, List.append_assoc]
      · have hset : alGet (alSet G d (gl ++ [sid])) k = alGet G k :=
          alGet_alSet_ne G d k (gl ++ [sid]) hkd
        have hcnt : (d :: rest).count k = rest.count k := by
          rw [List.count_cons]
          simp [hkd, Ne.symm hkd]
        rw [hG' k, hset, hcnt]
    · rw [hDkeys, alSet_keys _ _ _ hDsid]
    · rw [hGkeys, alSet_keys _ _ _ hGd]

theorem buildEdges_spec (sm : List (String × PipelineStep)) :
    ∀ (todo : List PipelineStep) (D : List (String × Int)) (G : List (String × List String)),
      (∀ s ∈ todo, ∀ d ∈ s.dependencies, (alGet sm d).isSome) →
      (∀ s ∈ todo, (alGet D s.id).isSome) →
      (∀ d, (alGet sm d).isSome → (alGet G d).isSome) →
      ∃ D' G', buildEdges sm todo D G = .ok (D', G') ∧
        (∀ k, alGet D' k = (alGet D k).map (fun v : Int =>
          v + (((todo.filter (fun s => s.id == k)).map
            (fun s => s.dependencies.length)).sum : Int))) ∧
        (∀ k, alGet G' k = (alGet G k).map (fun l => l ++ depList todo k)) ∧
        D'.map Prod.fst = D.map Prod.fst ∧ G'.map Prod.fst = G.map Prod.fst := by
  intro todo
  induction todo with
  | nil =>
    intro D G _ _ _
    refine ⟨D, G, rfl, ?_, ?_, rfl, rfl⟩
    · intro k
      cases alGet D k <;> simp [depList]
    · intro k
      cases alGet G k <;> simp [depList]
  | cons s rest ih =>
    intro D G hdeps hD hGsm
    obtain ⟨D1, G1, hrun1, hD1sid, hD1ne, hG1, hD1keys, hG1keys⟩ :=
      addStepEdges_spec sm s.id s.dependencies D G
        (hdeps s (List.mem_cons_self _ _)) (hD s (List.mem_cons_self _ _)) hGsm
    have hD1 : ∀ t ∈ rest, (alGet D1 t.id).isSome := by
      intro t ht
      rw [alGet_isSome_mem_keys, hD1keys, ← alGet_isSome_mem_keys]
      exact hD t (List.mem_cons_of_mem _ ht)
    have hG1sm : ∀ d, (alGet sm d).isSome → (alGet G1 d).isSome := by
      intro d hd
      rw [alGet_isSome_mem_keys, hG1keys, ← alGet_isSome_mem_keys]
      exact hGsm d hd
    obtain ⟨D', G', hrun, hD', hG', hDkeys, hGkeys⟩ :=
      ih D1 G1 (fun t ht => hdeps t (List.mem_cons_of_mem _ ht)) hD1 hG1sm
    refine ⟨D', G', ?_, ?_, ?_, ?_, ?_⟩
    · simp [buildEdges, hrun1, hrun]
    · intro k
      rw [hD' k]
      by_cases hks : k = s.id
      · subst hks
        rw [hD1sid]
        have hfilter : (s :: rest).filter (fun t => t.id == s.id) =
            s :: rest.filter (fun t => t.id == s.id) := by
          rw [List.filter_cons]
          simp
        rw [hfilter]
        cases hv : alGet D s.id
        · simp
        · simp only [Option.map_some', Option.some_inj, List.map_cons, List.sum_cons]
          ring_nf
      · have hfilter : (s :: rest).filter (fun t => t.id == k) =
            rest.filter (fun t => t.id == k) := by
          rw [List.filter_cons]
          have : (s.id == k) = false := by
            simp only [beq_eq_false_iff_ne, ne_eq]
            exact fun h => hks h.symm
          simp [this]
        rw [hD1ne k hks, hfilter]
    · intro k
      rw [hG' k, hG1 k]
      have hdl : depList (s :: rest) k =
          List.replicate (s.dependencies.count k) s.id ++ depList rest k := by
        simp [depList]
      rw [hdl]
      cases hv : alGet G k
      · simp
      · simp [List.append_assoc]
    · rw [hDkeys, hD1keys]
    · rw [hGkeys, hG1keys]

theorem mem_depList (steps : List PipelineStep) (x y : String)
    (h : y ∈ depList steps x) : y ∈ stepIds steps := by
  induction steps with
  | nil => simp [depList] at h
  | cons t rest ih =>
    simp only [depList, List.flatMap_cons] at h
    rcases List.mem_append.mp h with h' | h'
    · have := List.eq_of_mem_replicate h'
      subst this
      exact List.mem_cons_self _ _
    · exact List.mem_cons_of_mem _ (ih h')

theorem count_depList (x : String) :
    ∀ (steps : List PipelineStep) (s : PipelineStep),
      (stepIds steps).Nodup → s ∈ steps →
      (depList steps x).count s.id = s.dependencies.count x := by
  intro steps
  induction steps with
  | nil => intro s _ h; simp at h
  | cons t rest ih =>
    intro s hnd hs
    rw [stepIds_cons] at hnd
    obtain ⟨hni, hnd'⟩ := List.nodup_cons.mp hnd
    have hdl : depList (t :: rest) x =
        List.replicate (t.dependencies.count x) t.id ++ depList rest x := by
      simp [depList]
    rw [hdl, List.count_append]
    rcases List.mem_cons.mp hs with h' | h'
    · subst h'
      have hzero : (depList rest x).count s.id = 0 := by
        rw [List.count_eq_zero]
        intro hmem
        exact hni (mem_depList rest x s.id hmem)
      rw [hzero, List.count_replicate]
      simp
    · have hne : t.id ≠ s.id := by
        intro hcontra
        exact hni (hcontra ▸ List.mem_map.mpr ⟨s, h', rfl⟩)
      have hzero : (List.replicate (t.dependencies.count x) t.id).count s.id = 0 := by
        rw [List.count_replicate]
        simp [hne, Ne.symm hne]
      rw [hzero, ih s hnd' h']
      simp

theorem contrib_self :
    ∀ (steps : List PipelineStep) (s : PipelineStep),
      (stepIds steps).Nodup → s ∈ steps →
      ((steps.filter (fun t => t.id == s.id)).map
        (fun t => t.dependencies.length)).sum = s.dependencies.length := by
  intro steps
  induction steps with
  | nil => intro s _ h; simp at h
  | cons t rest ih =>
    intro s hnd hs
    rw [stepIds_cons] at hnd
    obtain ⟨hni, hnd'⟩ := List.nodup_cons.mp hnd
    rcases List.mem_cons.mp hs with h' | h'
    · subst h'
      rw [List.filter_cons]
      simp only [beq_self_eq_true, if_true]
      have hrest : rest.filter (fun t => t.id == s.id) = [] := by
        rw [List.filter_eq_nil_iff]
        intro t' ht'
        simp only [beq_iff_eq]
        intro hcontra
        exact hni (hcontra ▸ List.mem_map.mpr ⟨t', ht', rfl⟩)
      rw [hrest]
      simp
    · have hne : (t.id == s.id) = false := by
        simp only [beq_eq_false_iff_ne, ne_eq]
        intro hcontra
        exact hni (hcontra ▸ List.mem_map.mpr ⟨s, h', rfl⟩)
      rw [List.filter_cons]
      simp only [hne, Bool.false_eq_true, if_false]
      exact ih s hnd' h'

theorem resolveMaps_spec (steps : List PipelineStep) (hnd : (stepIds steps).Nodup)
    (hdeps : depsPresent steps) :
    ∃ Df Gf,
      buildEdges (buildMaps steps).1 steps (buildMaps steps).2.1 (buildMaps steps).2.2 =
        .ok (Df, Gf) ∧
      (∀ s ∈ steps, alGet Df s.id = some ((s.dependencies.length : Int))) ∧
      (∀ d ∈ stepIds steps, alGet Gf d = some (depList steps d)) ∧
      Df.map Prod.fst = stepIds steps ∧ Gf.map Prod.fst = stepIds steps := by
  rw [buildMaps_eq steps hnd]
  have hkeys0 : ∀ {β : Type} (f : PipelineStep → β),
      (steps.map (fun t => (t.id, f t))).map Prod.fst = stepIds steps := by
    intro β f
    simp [stepIds, List.map_map, Function.comp]
  obtain ⟨Df, Gf, hrun, hD, hG, hDkeys, hGkeys⟩ :=
    buildEdges_spec (steps.map (fun t => (t.id, t))) steps
      (steps.map (fun t => (t.id, (0 : Int)))) (steps.map (fun t => (t.id, ([] : List String))))
      (by
        intro s hs d hd
        rw [alGet_map_pair_isSome]
        exact hdeps s hs d hd)
      (by
        intro s hs
        rw [alGet_map_pair_isSome]
        exact List.mem_map.mpr ⟨s, hs, rfl⟩)
      (by
        intro d hd
        rw [alGet_map_pair_isSome] at hd ⊢
        exact hd)
  refine ⟨Df, Gf, hrun, ?_, ?_, ?_, ?_⟩
  · intro s hs
    rw [hD s.id, alGet_map_pair (fun _ => (0 : Int)) steps s hnd hs]
    simp only [Option.map_some', Option.some_inj]
    have hcast : (List.map (fun t : PipelineStep => (t.dependencies.length : Int))
        (steps.filter (fun t => t.id == s.id))).sum =
        ((((steps.filter (fun t => t.id == s.id)).map
          (fun t => t.dependencies.length)).sum : Nat) : Int) := by
      rw [Nat.cast_list_sum, List.map_map]
      rfl
    rw [hcast, contrib_self steps s hnd hs]
    simp
  · intro d hd
    obtain ⟨s, hs, rfl⟩ := List.mem_map.mp hd
    rw [hG s.id, alGet_map_pair (fun _ => ([] : List String)) steps s hnd hs]
    simp
  · rw [hDkeys, hkeys0]
  · rw [hGkeys, hkeys0]

/-! ## Kahn's loop: measure and queue-push characterization -/

theorem degSum_append (a b : List (String × Int)) :
    degSum (a ++ b) = degSum a + degSum b := by
  induction a with
  | nil => simp [degSum]
  | cons p rest ih => simp [degSum] at ih ⊢; omega

theorem degSum_alSet_some (D : List (String × Int)) (k : String) (v w : Int)
    (h : alGet D k = some v) : degSum (alSet D k w) + v.toNat = degSum D + w.toNat := by
  induction D with
  | nil => simp [alGet_nil] at h
  | cons p rest ih =>
    obtain ⟨k1, v1⟩ := p
    rcases hk : (k1 == k) with _ | _
    · rw [alGet_cons, hk] at h
      simp only [Bool.false_eq_true, if_false] at h
      simp only [alSet, hk, Bool.false_eq_true, if_false, degSum, List.foldr]
      have := ih h
      simp only [degSum] at this
      omega
    · rw [alGet_cons, hk] at h
      simp only [if_true] at h
      cases h
      simp only [alSet, hk, if_true, degSum, List.foldr]
      omega

theorem degSum_alSet_none (D : List (String × Int)) (k : String) (w : Int)
    (h : alGet D k = none) : degSum (alSet D k w) = degSum D + w.toNat := by
  rw [alSet_of_none _ _ _ h, degSum_append]
  simp [degSum]

theorem processDependents_measure :
    ∀ (lst : List String) (D : List (String × Int)) (Q : List String),
      (processDependents lst D Q).2.length + degSum (processDependents lst D Q).1 ≤
        Q.length + degSum D := by
  intro lst
  induction lst with
  | nil => intro D Q; simp [processDependents]
  | cons d rest ih =>
    intro D Q
    rcases hget : alGet D d with _ | v
    · have hcur : (alGet D d).getD 0 = 0 := by rw [hget]; rfl
      have hcond : ((0 : Int) - 1 == 0) = false := by decide
      have hstep : processDependents (d :: rest) D Q =
          processDependents rest (alSet D d (0 - 1)) Q := by
        simp [processDependents, hcur, hcond]
      rw [hstep]
      have hds : degSum (alSet D d (0 - 1)) = degSum D := by
        rw [degSum_alSet_none D d _ hget]
        rfl
      have := ih (alSet D d (0 - 1)) Q
      omega
    · have hcur : (alGet D d).getD 0 = v := by rw [hget]; rfl
      have hds := degSum_alSet_some D d v (v - 1) hget
      by_cases hv1 : v - 1 = 0
      · have hcond : ((v : Int) - 1 == 0) = true := by simp [hv1]
        have hstep : processDependents (d :: rest) D Q =
            processDependents rest (alSet D d (v - 1)) (Q ++ [d]) := by
          simp [processDependents, hcur, hcond]
        rw [hstep]
        have := ih (alSet D d (v - 1)) (Q ++ [d])
        have hlen : (Q ++ [d]).length = Q.length + 1 := by simp
        have hv : v = 1 := by omega
        subst hv
        simp only [Int.toNat_one] at hds
        have hz : ((1 : Int) - 1).toNat = 0 := by decide
        rw [hz] at hds
        omega
      · have hcond : ((v : Int) - 1 == 0) = false := by
          simp only [beq_eq_false_iff_ne, ne_eq]
          exact hv1
        have hstep : processDependents (d :: rest) D Q =
            processDependents rest (alSet D d (v - 1)) Q := by
          simp [processDependents, hcur, hcond]
        rw [hstep]
        have := ih (alSet D d (v - 1)) Q
        have htn : (v - 1).toNat ≤ v.toNat := by omega
        omega

theorem processDependents_spec :
    ∀ (lst : List String) (D : List (String × Int)) (Q : List String),
      (∀ k ∈ lst, ∃ v : Int, alGet D k = some v ∧ (lst.count k : Int) ≤ v) →
      (∀ k, k ∉ lst → alGet (processDependents lst D Q).1 k = alGet D k) ∧
      (∀ k (v : Int), k ∈ lst → alGet D k = some v →
        alGet (processDependents lst D Q).1 k = some (v - lst.count k)) ∧
      (∃ newQ, (processDependents lst D Q).2 = Q ++ newQ ∧ newQ.Nodup ∧
        (∀ k, k ∈ newQ ↔ k ∈ lst ∧ alGet D k = some ((lst.count k : Int)))) := by
  intro lst
  induction lst with
  | nil =>
    intro D Q _
    exact ⟨fun _ _ => rfl, fun k v hk => absurd hk (List.not_mem_nil k),
      [], by simp [processDependents], List.nodup_nil, by simp⟩
  | cons d rest ih =>
    intro D Q hpre
    obtain ⟨v, hv, hcnt⟩ := hpre d (List.mem_cons_self _ _)
    have hcur : (alGet D d).getD 0 = v := by rw [hv]; rfl
    have hcntd : ((d :: rest).count d) = rest.count d + 1 := List.count_cons_self d rest
    have hvpos : (1 : Int) ≤ v := by
      rw [hcntd] at hcnt
      push_cast at hcnt
      omega
    have hcount_ne : ∀ k, k ≠ d → (d :: rest).count k = rest.count k := by
      intro k hkd
      rw [List.count_cons]
      simp [Ne.symm hkd]
    have hpre1 : ∀ k ∈ rest, ∃ w : Int,
        alGet (alSet D d (v - 1)) k = some w ∧ (rest.count k : Int) ≤ w := by
      intro k hk
      by_cases hkd : k = d
      · subst hkd
        refine ⟨v - 1, alGet_alSet_self D k (v - 1), ?_⟩
        rw [hcntd] at hcnt
        push_cast at hcnt ⊢
        omega
      · obtain ⟨w, hw, hwcnt⟩ := hpre k (List.mem_cons_of_mem _ hk)
        refine ⟨w, by rw [alGet_alSet_ne D d k _ hkd]; exact hw, ?_⟩
        rw [hcount_ne k hkd] at hwcnt
        exact hwcnt
    by_cases hv1 : v - 1 = 0
    · -- the decrement reaches zero and d is pushed onto the queue
      have hveq : v = 1 := by omega
      have hcrest : rest.count d = 0 := by
        rw [hcntd] at hcnt
        push_cast at hcnt
        omega
      have hdnotrest : d ∉ rest := List.count_eq_zero.mp hcrest
      have hcond : ((v : Int) - 1 == 0) = true := by simp [hv1]
      have hstep : processDependents (d :: rest) D Q =
          processDependents rest (alSet D d (v - 1)) (Q ++ [d]) := by
        simp [processDependents, hcur, hcond]
      obtain ⟨h1, h2, newQr, hQr, hnodupr, hmemr⟩ :=
        ih (alSet D d (v - 1)) (Q ++ [d]) hpre1
      refine ⟨?_, ?_, d :: newQr, ?_, ?_, ?_⟩
      · intro k hk
        have hkd : k ≠ d := fun h => hk (h ▸ List.mem_cons_self _ _)
        have hkrest : k ∉ rest := fun h => hk (List.mem_cons_of_mem _ h)
        rw [hstep, h1 k hkrest, alGet_alSet_ne D d k _ hkd]
      · intro k w hk hw
        rw [hstep]
        by_cases hkd : k = d
        · rw [hkd] at hw ⊢
          have hwv : w = v := by rw [hv] at hw; injection hw with h; exact h.symm
          rw [h1 d hdnotrest, alGet_alSet_self, hcntd, hcrest, hwv, hveq]
          rfl
        · rcases List.mem_cons.mp hk with h' | h'
          · exact absurd h' hkd
          · rw [h2 k w h' (by rw [alGet_alSet_ne D d k _ hkd]; exact hw),
              hcount_ne k hkd]
      · rw [hstep, hQr, List.append_assoc]
        rfl
      · refine List.nodup_cons.mpr ⟨?_, hnodupr⟩
        intro hmem
        exact hdnotrest ((hmemr d).mp hmem).1
      · intro k
        by_cases hkd : k = d
        · rw [hkd]
          simp only [List.mem_cons, true_or, true_and]
          constructor
          · intro _
            rw [hv, hcntd, hcrest, hveq]
            rfl
          · intro _
            trivial
        · constructor
          · intro hmem
            rcases List.mem_cons.mp hmem with h' | h'
            · exact absurd h' hkd
            · obtain ⟨hkrest, hget⟩ := (hmemr k).mp h'
              rw [alGet_alSet_ne D d k _ hkd] at hget
              exact ⟨List.mem_cons_of_mem _ hkrest, by rw [hcount_ne k hkd]; exact hget⟩
          · rintro ⟨hkmem, hget⟩
            rcases List.mem_cons.mp hkmem with h' | h'
            · exact absurd h' hkd
            · refine List.mem_cons_of_mem _ ((hmemr k).mpr ⟨h', ?_⟩)
              rw [alGet_alSet_ne D d k _ hkd, ← hcount_ne k hkd]
              exact hget
    · -- the decrement does not reach zero: nothing is pushed for d
      have hcond : ((v : Int) - 1 == 0) = false := by
        simp only [beq_eq_false_iff_ne, ne_eq]
        exact hv1
      have hstep : processDependents (d :: rest) D Q =
          processDependents rest (alSet D d (v - 1)) Q := by
        simp [processDependents, hcur, hcond]
      obtain ⟨h1, h2, newQr, hQr, hnodupr, hmemr⟩ :=
        ih (alSet D d (v - 1)) Q hpre1
      refine ⟨?_, ?_, newQr, ?_, hnodupr, ?_⟩
      · intro k hk
        have hkd : k ≠ d := fun h => hk (h ▸ List.mem_cons_self _ _)
        have hkrest : k ∉ rest := fun h => hk (List.mem_cons_of_mem _ h)
        rw [hstep, h1 k hkrest, alGet_alSet_ne D d k _ hkd]
      · intro k w hk hw
        rw [hstep]
        by_cases hkd : k = d
        · rw [hkd] at hw ⊢
          have hwv : w = v := by rw [hv] at hw; injection hw with h; exact h.symm
          by_cases hdrest : d ∈ rest
          · rw [h2 d (v - 1) hdrest (alGet_alSet_self D d (v - 1)), hcntd, hwv]
            congr 1
            push_cast
            try ring
          · rw [h1 d hdrest, alGet_alSet_self, hcntd, hwv]
            rw [List.count_eq_zero.mpr hdrest]
            congr 1
            try push_cast
            try ring
        · rcases List.mem_cons.mp hk with h' | h'
          · exact absurd h' hkd
          · rw [h2 k w h' (by rw [alGet_alSet_ne D d k _ hkd]; exact hw),
              hcount_ne k hkd]
      · rw [hstep, hQr]
      · intro k
        by_cases hkd : k = d
        · rw [hkd, hmemr d, alGet_alSet_self]
          constructor
          · rintro ⟨hdrest, hget⟩
            have hvc : v - 1 = (rest.count d : Int) := by
              injection hget with h
            refine ⟨List.mem_cons_self _ _, ?_⟩
            rw [hv, hcntd]
            push_cast
            try congr 1
            try omega
          · rintro ⟨_, hget⟩
            have hvc : v = ((d :: rest).count d : Int) := by
              rw [hv] at hget
              injection hget with h
              try exact h
            rw [hcntd] at hvc
            push_cast at hvc
            have hrpos : 1 ≤ rest.count d := by omega
            have hdrest : d ∈ rest := by
              by_contra hno
              rw [List.count_eq_zero.mpr hno] at hrpos
              omega
            refine ⟨hdrest, ?_⟩
            congr 1
            try omega
        · rw [hmemr k, alGet_alSet_ne D d k _ hkd, hcount_ne k hkd]
          constructor
          · rintro ⟨hkrest, hget⟩
            exact ⟨List.mem_cons_of_mem _ hkrest, hget⟩
          · rintro ⟨hkor, hget⟩
            rcases List.mem_cons.mp hkor with h' | h'
            · exact absurd h' hkd
            · exact ⟨h', hget⟩

/-! ## Kahn's loop invariant -/

theorem stepIds_append (a b : List PipelineStep) :
    stepIds (a ++ b) = stepIds a ++ stepIds b := by
  simp [stepIds]

theorem exists_step_of_mem_ids (steps : List PipelineStep) (x : String)
    (h : x ∈ stepIds steps) : ∃ s ∈ steps, s.id = x := by
  obtain ⟨s, hs, rfl⟩ := List.mem_map.mp h
  exact ⟨s, hs, rfl⟩

theorem step_id_unique (steps : List PipelineStep) (hnd : (stepIds steps).Nodup)
    (s t : PipelineStep) (hs : s ∈ steps) (ht : t ∈ steps) (hid : s.id = t.id) :
    s = t := by
  have h1 := alGet_map_pair (fun u => u) steps s hnd hs
  have h2 := alGet_map_pair (fun u => u) steps t hnd ht
  rw [hid] at h1
  rw [h1] at h2
  injection h2

theorem filter_len_split (x : String) (P : List String) (hx : x ∉ P) :
    ∀ l : List String, (l.filter (fun d => decide (d ∉ P))).length =
      (l.filter (fun d => decide (d ∉ (P ++ [x])))).length + l.count x := by
  intro l
  induction l with
  | nil => simp
  | cons y rest ih =>
    by_cases hyx : y = x
    · subst hyx
      have h1 : (decide (y ∉ P)) = true := by simp [hx]
      have h2 : (decide (y ∉ (P ++ [y]))) = false := by simp
      rw [List.filter_cons, List.filter_cons, List.count_cons_self, h1, h2]
      simp only [if_true, Bool.false_eq_true, if_false, List.length_cons]
      omega
    · have hsame : (decide (y ∉ (P ++ [x]))) = (decide (y ∉ P)) := by
        simp only [List.mem_append, List.mem_singleton, decide_not]
        simp [hyx]
      have hcnt : (y :: rest).count x = rest.count x := by
        rw [List.count_cons]
        simp [hyx]
      rw [List.filter_cons, List.filter_cons, hcnt, hsame]
      rcases hdec : (decide (y ∉ P)) <;>
        simp only [Bool.false_eq_true, if_false, if_true, List.length_cons] <;>
        omega

theorem filter_not_mem_nil (l : List String) :
    l.filter (fun d => decide (d ∉ ([] : List String))) = l := by
  induction l with
  | nil => rfl
  | cons y rest ih => simp [List.filter_cons, ih]

theorem kahn_base (steps : List PipelineStep) (D : List (String × Int))
    (R : List PipelineStep) (hinv : KahnInv steps [] D R) : KahnFinal steps R := by
  refine ⟨by simpa using hinv.nodup, hinv.sub, hinv.ordered, ?_⟩
  intro s hs hnotin
  have hid : s.id ∈ stepIds steps := List.mem_map.mpr ⟨s, hs, rfl⟩
  have hD := hinv.deg s hs
  have hD0 : alGet D s.id ≠ some 0 := by
    intro h
    exact List.not_mem_nil s.id ((hinv.queue s.id).mpr ⟨hid, hnotin, h⟩)
  have hlen : (s.dependencies.filter (fun d => decide (d ∉ stepIds R))).length ≠ 0 := by
    intro h
    apply hD0
    rw [hD, h]
    rfl
  rcases hf : s.dependencies.filter (fun d => decide (d ∉ stepIds R)) with _ | ⟨d, rest⟩
  · rw [hf] at hlen
    simp at hlen
  · have hd : d ∈ s.dependencies.filter (fun d => decide (d ∉ stepIds R)) := by
      rw [hf]
      exact List.mem_cons_self _ _
    obtain ⟨hmem, hdec⟩ := List.mem_filter.mp hd
    exact ⟨d, hmem, by simpa using hdec⟩

theorem kahn_invariant (steps : List PipelineStep)
    (hnd : (stepIds steps).Nodup)
    (G : List (String × List String))
    (hG : ∀ d ∈ stepIds steps, alGet G d = some (depList steps d)) :
    ∀ (fuel : Nat) (Q : List String) (D : List (String × Int)) (R : List PipelineStep),
      KahnInv steps Q D R → Q.length + degSum D ≤ fuel →
      KahnFinal steps (kahnLoopF (steps.map (fun t => (t.id, t))) G fuel Q D R) := by
  intro fuel
  induction fuel with
  | zero =>
    intro Q D R hinv hfuel
    cases Q with
    | nil => exact kahn_base steps D R hinv
    | cons x restQ =>
      exfalso
      have : (x :: restQ).length = restQ.length + 1 := rfl
      omega
  | succ fuel ih =>
    intro Q D R hinv hfuel
    cases Q with
    | nil => exact kahn_base steps D R hinv
    | cons x restQ =>
      obtain ⟨hxids, hxnotR, hDx⟩ := (hinv.queue x).mp (List.mem_cons_self x restQ)
      obtain ⟨sx, hsx, hsxid⟩ := exists_step_of_mem_ids steps x hxids
      have hsmx : alGet (steps.map (fun t => (t.id, t))) x = some sx := by
        rw [← hsxid]
        exact alGet_map_pair (fun u => u) steps sx hnd hsx
      have hGx : alGet G x = some (depList steps x) := hG x hxids
      have hunfold : kahnLoopF (steps.map (fun t => (t.id, t))) G (fuel + 1)
          (x :: restQ) D R =
          kahnLoopF (steps.map (fun t => (t.id, t))) G fuel
            (processDependents (depList steps x) D restQ).2
            (processDependents (depList steps x) D restQ).1 (R ++ [sx]) := by
        simp only [kahnLoopF, hsmx, hGx, Option.getD_some]
      rw [hunfold]
      have hpre : ∀ k ∈ depList steps x, ∃ v : Int, alGet D k = some v ∧
          ((depList steps x).count k : Int) ≤ v := by
        intro k hk
        obtain ⟨sk, hsk, hskid⟩ :=
          exists_step_of_mem_ids steps k (mem_depList steps x k hk)
        have hdeg := hinv.deg sk hsk
        rw [hskid] at hdeg
        refine ⟨_, hdeg, ?_⟩
        have hcc : (depList steps x).count k = sk.dependencies.count x := by
          rw [← hskid]
          exact count_depList x steps sk hnd hsk
        have hsplit := filter_len_split x (stepIds R) hxnotR sk.dependencies
        rw [hcc]
        omega
      obtain ⟨h1, h2, newQ, hQ2, hnodupQ, hmemQ⟩ :=
        processDependents_spec (depList steps x) D restQ hpre
      have hRQnodup := hinv.nodup
      have hQnodup : (x :: restQ).Nodup := hRQnodup.of_append_right
      have hxnotrestQ : x ∉ restQ := (List.nodup_cons.mp hQnodup).1
      have hP2 : stepIds (R ++ [sx]) = stepIds R ++ [x] := by
        rw [stepIds_append]
        simp [stepIds, hsxid]
      have hlen0 : (sx.dependencies.filter (fun d => decide (d ∉ stepIds R))).length = 0 := by
        have hdeg := hinv.deg sx hsx
        rw [hsxid, hDx] at hdeg
        injection hdeg with h
        exact_mod_cast h.symm
      have hdepsx : ∀ d ∈ sx.dependencies, d ∈ stepIds R := by
        intro d hd
        by_contra hno
        have hmemf : d ∈ sx.dependencies.filter (fun d => decide (d ∉ stepIds R)) :=
          List.mem_filter.mpr ⟨hd, by simpa using hno⟩
        rw [List.length_eq_zero] at hlen0
        rw [hlen0] at hmemf
        exact List.not_mem_nil d hmemf
      have hcount : ∀ s ∈ steps, (depList steps x).count s.id = s.dependencies.count x :=
        fun s hs => count_depList x steps s hnd hs
      have hD2 : ∀ s ∈ steps, alGet (processDependents (depList steps x) D restQ).1 s.id =
          some (((s.dependencies.filter
            (fun d => decide (d ∉ stepIds (R ++ [sx])))).length : Int)) := by
        intro s hs
        have hdeg := hinv.deg s hs
        have hsplit := filter_len_split x (stepIds R) hxnotR s.dependencies
        rw [hP2]
        by_cases hmem : s.id ∈ depList steps x
        · rw [h2 s.id _ hmem hdeg, hcount s hs]
          congr 1
          omega
        · rw [h1 s.id hmem, hdeg]
          have hc0 : s.dependencies.count x = 0 := by
            rw [← hcount s hs]
            exact List.count_eq_zero.mpr hmem
          congr 1
          omega
      have hnewQfacts : ∀ k ∈ newQ, k ∈ stepIds steps ∧ k ∉ stepIds R ∧ k ≠ x ∧
          k ∉ restQ := by
        intro k hk
        obtain ⟨hklst, hkD⟩ := (hmemQ k).mp hk
        have hkpos : 0 < (depList steps x).count k := List.count_pos_iff.mpr hklst
        have hkids : k ∈ stepIds steps := mem_depList steps x k hklst
        refine ⟨hkids, ?_, ?_, ?_⟩
        · intro hkR
          obtain ⟨sk, hskR, hskid⟩ := exists_step_of_mem_ids R k hkR
          have hsk : sk ∈ steps := hinv.sub sk hskR
          have hskidR : sk.id ∈ stepIds R := List.mem_map.mpr ⟨sk, hskR, rfl⟩
          have hcl := hinv.closed sk hsk hskidR
          have hfilnil : sk.dependencies.filter (fun d => decide (d ∉ stepIds R)) = [] := by
            rw [List.filter_eq_nil_iff]
            intro d hd
            simpa using hcl d hd
          have hdeg := hinv.deg sk hsk
          rw [hfilnil, hskid] at hdeg
          have hzero : ((depList steps x).count k : Int) = 0 := by
            rw [hdeg] at hkD
            injection hkD with hcontra
            simpa using hcontra.symm
          omega
        · intro hkx
          rw [hkx] at hkD hkpos
          rw [hDx] at hkD
          injection hkD with hc
          have hzero : ((depList steps x).count x : Int) = 0 := hc.symm
          omega
        · intro hkQ
          obtain ⟨_, _, hk0⟩ := (hinv.queue k).mp (List.mem_cons_of_mem x hkQ)
          rw [hk0] at hkD
          injection hkD with hc
          have hzero : ((depList steps x).count k : Int) = 0 := hc.symm
          omega
      have hnodup2 : (stepIds (R ++ [sx]) ++
          (processDependents (depList steps x) D restQ).2).Nodup := by
        rw [hP2, hQ2]
        have hperm : stepIds R ++ [x] ++ (restQ ++ newQ) =
            (stepIds R ++ (x :: restQ)) ++ newQ := by
          simp [List.append_assoc]
        rw [hperm]
        refine List.Nodup.append hRQnodup hnodupQ ?_
        intro a ha1 ha2
        obtain ⟨_, haR, hax, haQ⟩ := hnewQfacts a ha2
        rcases List.mem_append.mp ha1 with h' | h'
        · exact haR h'
        · rcases List.mem_cons.mp h' with h'' | h''
          · exact hax h''
          · exact haQ h''
      have hmem2 : ∀ k ∈ stepIds (R ++ [sx]) ++
          (processDependents (depList steps x) D restQ).2, k ∈ stepIds steps := by
        intro k hk
        rw [hP2, hQ2] at hk
        rcases List.mem_append.mp hk with h' | h'
        · rcases List.mem_append.mp h' with h'' | h''
          · exact hinv.memIds k (List.mem_append.mpr (Or.inl h''))
          · rw [List.mem_singleton] at h''
            rw [h'']
            exact hxids
        · rcases List.mem_append.mp h' with h'' | h''
          · exact hinv.memIds k
              (List.mem_append.mpr (Or.inr (List.mem_cons_of_mem x h'')))
          · exact (hnewQfacts k h'').1
      have hqueue2 : ∀ k, k ∈ (processDependents (depList steps x) D restQ).2 ↔
          (k ∈ stepIds steps ∧ k ∉ stepIds (R ++ [sx]) ∧
            alGet (processDependents (depList steps x) D restQ).1 k = some 0) := by
        intro k
        rw [hQ2, hP2]
        constructor
        · intro hk
          rcases List.mem_append.mp hk with h' | h'
          · obtain ⟨hkids, hkR, hk0⟩ := (hinv.queue k).mp (List.mem_cons_of_mem x h')
            have hkx : k ≠ x := by
              intro h
              rw [h] at h'
              exact hxnotrestQ h'
            have hknotlst : k ∉ depList steps x := by
              intro hklst
              obtain ⟨v, hv, hcnt⟩ := hpre k hklst
              rw [hk0] at hv
              injection hv with hv0
              have hckpos : 0 < (depList steps x).count k := List.count_pos_iff.mpr hklst
              rw [← hv0] at hcnt
              omega
            refine ⟨hkids, ?_, ?_⟩
            · intro hmem
              rcases List.mem_append.mp hmem with h'' | h''
              · exact hkR h''
              · rw [List.mem_singleton] at h''
                exact hkx h''
            · rw [h1 k hknotlst]
              exact hk0
          · obtain ⟨hklst, hkD⟩ := (hmemQ k).mp h'
            obtain ⟨hkids, hkR, hkx, _⟩ := hnewQfacts k h'
            refine ⟨hkids, ?_, ?_⟩
            · intro hmem
              rcases List.mem_append.mp hmem with h'' | h''
              · exact hkR h''
              · rw [List.mem_singleton] at h''
                exact hkx h''
            · rw [h2 k _ hklst hkD]
              simp
        · rintro ⟨hkids, hkP2, hk0⟩
          have hkR : k ∉ stepIds R := fun h => hkP2 (List.mem_append.mpr (Or.inl h))
          have hkx : k ≠ x := fun h =>
            hkP2 (List.mem_append.mpr (Or.inr (List.mem_singleton.mpr h)))
          by_cases hklst : k ∈ depList steps x
          · obtain ⟨sk, hsk, hskid⟩ := exists_step_of_mem_ids steps k hkids
            have hdeg := hinv.deg sk hsk
            rw [hskid] at hdeg
            have hD2k := h2 k _ hklst hdeg
            rw [hD2k] at hk0
            injection hk0 with hk0'
            have hkD : alGet D k = some (((depList steps x).count k : Int)) := by
              rw [hdeg]
              congr 1
              omega
            exact List.mem_append.mpr (Or.inr ((hmemQ k).mpr ⟨hklst, hkD⟩))
          · have hold := h1 k hklst
            rw [hold] at hk0
            have hkQ : k ∈ x :: restQ := (hinv.queue k).mpr ⟨hkids, hkR, hk0⟩
            rcases List.mem_cons.mp hkQ with h'' | h''
            · exact absurd h'' hkx
            · exact List.mem_append.mpr (Or.inl h'')
      have hsub2 : ∀ s ∈ R ++ [sx], s ∈ steps := by
        intro s hs
        rcases List.mem_append.mp hs with h' | h'
        · exact hinv.sub s h'
        · rw [List.mem_singleton] at h'
          rw [h']
          exact hsx
      have hord2 : ∀ i (h : i < (R ++ [sx]).length),
          ∀ d ∈ ((R ++ [sx]).get ⟨i, h⟩).dependencies,
            d ∈ stepIds ((R ++ [sx]).take i) := by
        intro i h d hd
        by_cases hi : i < R.length
        · have hsame : (R ++ [sx]).get ⟨i, h⟩ = R.get ⟨i, hi⟩ := by
            rw [List.get_eq_getElem, List.get_eq_getElem]
            exact List.getElem_append_left hi
          rw [hsame] at hd
          have htake : (R ++ [sx]).take i = R.take i :=
            List.take_append_of_le_length (le_of_lt hi)
          rw [htake]
          exact hinv.ordered i hi d hd
        · have hieq : i = R.length := by
            have hlt : i < (R ++ [sx]).length := h
            rw [List.length_append, List.length_singleton] at hlt
            omega
          subst hieq
          have hsame : (R ++ [sx]).get ⟨R.length, h⟩ = sx := by
            rw [List.get_eq_getElem]
            rw [List.getElem_append_right (Nat.le_refl _)]
            simp
          rw [hsame] at hd
          have htake : (R ++ [sx]).take R.length = R := by
            rw [List.take_append_of_le_length (Nat.le_refl _), List.take_length _]
          rw [htake]
          exact hdepsx d hd
      have hclosed2 : ∀ s ∈ steps, s.id ∈ stepIds (R ++ [sx]) →
          ∀ d ∈ s.dependencies, d ∈ stepIds (R ++ [sx]) := by
        intro s hs hsid d hd
        rw [hP2] at hsid ⊢
        rcases List.mem_append.mp hsid with h' | h'
        · exact List.mem_append.mpr (Or.inl (hinv.closed s hs h' d hd))
        · rw [List.mem_singleton] at h'
          have hseq : s = sx := step_id_unique steps hnd s sx hs hsx (by rw [h', hsxid])
          rw [hseq] at hd
          exact List.mem_append.mpr (Or.inl (hdepsx d hd))
      have hmeas := processDependents_measure (depList steps x) D restQ
      have hflen : (x :: restQ).length = restQ.length + 1 := rfl
      exact ih _ _ _ ⟨hnodup2, hmem2, hD2, hqueue2, hsub2, hord2, hclosed2⟩ (by omega)

theorem kahn_init (steps : List PipelineStep) (hnd : (stepIds steps).Nodup)
    (Df : List (String × Int))
    (hD : ∀ s ∈ steps, alGet Df s.id = some ((s.dependencies.length : Int)))
    (hDkeys : Df.map Prod.fst = stepIds steps) :
    KahnInv steps ((Df.filter (fun p => p.2 == 0)).map (fun p => p.1)) Df [] := by
  have hnd' : (Df.map Prod.fst).Nodup := by rw [hDkeys]; exact hnd
  refine ⟨?_, ?_, ?_, ?_, ?_, ?_, ?_⟩
  · simp only [stepIds, List.map_nil, List.nil_append]
    exact List.Nodup.sublist (List.Sublist.map _ (List.filter_sublist _)) hnd'
  · intro x hx
    simp only [stepIds, List.map_nil, List.nil_append] at hx
    obtain ⟨q, hq, hq1⟩ := List.mem_map.mp hx
    have hmem : q.1 ∈ Df.map Prod.fst :=
      List.mem_map.mpr ⟨q, (List.mem_filter.mp hq).1, rfl⟩
    rw [hDkeys] at hmem
    rw [← hq1]
    exact hmem
  · intro s hs
    simp only [stepIds, List.map_nil]
    rw [filter_not_mem_nil]
    exact hD s hs
  · intro x
    constructor
    · intro hx
      have hx' : x ∈ (Df.filter (fun q => (fun v : Int => v == 0) q.2)).map Prod.fst := hx
      obtain ⟨v, hv, hp⟩ := (mem_filter_map_fst Df x (fun v : Int => v == 0) hnd').mp hx'
      have hv0 : v = 0 := by simpa using hp
      subst hv0
      refine ⟨?_, by simp [stepIds], hv⟩
      have hkey : x ∈ Df.map Prod.fst :=
        (alGet_isSome_mem_keys Df x).mp (by rw [hv]; rfl)
      rw [hDkeys] at hkey
      exact hkey
    · rintro ⟨hxids, _, hx0⟩
      exact (mem_filter_map_fst Df x (fun v : Int => v == 0) hnd').mpr ⟨0, hx0, by simp⟩
  · intro s hs
    exact absurd hs (List.not_mem_nil s)
  · intro i h
    simp at h
  · intro s _ hsid
    simp [stepIds] at hsid

theorem resolveOrder_final (steps : List PipelineStep) (hnd : (stepIds steps).Nodup)
    (hdeps : depsPresent steps) :
    ∃ result, resolveOrder steps = .ok result ∧ KahnFinal steps result := by
  obtain ⟨Df, Gf, hrun, hD, hG, hDkeys, hGkeys⟩ := resolveMaps_spec steps hnd hdeps
  have hbm := buildMaps_eq steps hnd
  have hinit := kahn_init steps hnd Df hD hDkeys
  have hfin := kahn_invariant steps hnd Gf hG
    (((Df.filter (fun p => p.2 == 0)).map (fun p => p.1)).length + degSum Df)
    ((Df.filter (fun p => p.2 == 0)).map (fun p => p.1)) Df [] hinit (le_refl _)
  refine ⟨_, ?_, hfin⟩
  simp only [resolveOrder]
  rw [hrun, hbm]

theorem depsPresent_of_hasTopo (steps : List PipelineStep) (h : hasTopo steps) :
    depsPresent steps := by
  obtain ⟨L, hperm, hord⟩ := h
  intro s hs d hd
  have hsL : s ∈ L := hperm.subset hs
  obtain ⟨i, hi, hieq⟩ := List.mem_iff_getElem.mp hsL
  have hdt : d ∈ stepIds (L.take i) := by
    refine hord i hi d ?_
    rw [List.get_eq_getElem, hieq]
    exact hd
  have hsub : stepIds (L.take i) ⊆ stepIds L := by
    simp only [stepIds]
    exact ((List.take_sublist i L).map (fun t => t.id)).subset
  have hpermids : (stepIds steps).Perm (stepIds L) := by
    simp only [stepIds]
    exact hperm.map (fun t => t.id)
  exact hpermids.mem_iff.mpr (hsub hdt)

theorem kahn_complete (steps : List PipelineStep)
    (R : List PipelineStep) (hfin : KahnFinal steps R) (htopo : hasTopo steps) :
    ∀ s ∈ steps, s.id ∈ stepIds R := by
  obtain ⟨L, hperm, hord⟩ := htopo
  have key : ∀ i, i ≤ L.length → ∀ j (hj : j < L.length), j < i →
      (L.get ⟨j, hj⟩).id ∈ stepIds R := by
    intro i
    induction i with
    | zero =>
      intro _ j hj hji
      omega
    | succ n ihn =>
      intro hn j hj hjn
      by_cases hjc : j < n
      · exact ihn (by omega) j hj hjc
      · have hjeq : j = n := by omega
        subst hjeq
        by_contra hno
        have hs : L.get ⟨j, hj⟩ ∈ steps := by
          refine hperm.mem_iff.mpr ?_
          rw [List.get_eq_getElem]
          exact List.getElem_mem hj
        obtain ⟨d, hd, hdR⟩ := hfin.blocked _ hs hno
        have hdtake : d ∈ stepIds (L.take j) := hord j hj d hd
        obtain ⟨t, ht, htid⟩ := exists_step_of_mem_ids (L.take j) d hdtake
        obtain ⟨m, hm, hteq⟩ := List.mem_iff_getElem.mp ht
        have hmlt : m < j := by
          have hmm := hm
          rw [List.length_take] at hmm
          omega
        have hmL : m < L.length := by omega
        have hgm : (L.take j).get ⟨m, hm⟩ = L.get ⟨m, hmL⟩ := by
          rw [List.get_eq_getElem, List.get_eq_getElem]
          exact List.getElem_take _
        have hradix : (L.get ⟨m, hmL⟩).id ∈ stepIds R := ihn (by omega) m hmL hmlt
        have htm : t = L.get ⟨m, hmL⟩ := by
          rw [← hgm, List.get_eq_getElem]
          exact hteq.symm
        rw [htm] at htid
        rw [htid] at hradix
        exact hdR hradix
  intro s hs
  obtain ⟨j, hj, hjeq⟩ := List.mem_iff_getElem.mp (hperm.subset hs)
  have hk := key L.length (le_refl _) j hj hj
  rw [List.get_eq_getElem, hjeq] at hk
  exact hk

theorem kahn_perm (steps : List PipelineStep) (hnd : (stepIds steps).Nodup)
    (R : List PipelineStep) (hfin : KahnFinal steps R)
    (hall : ∀ s ∈ steps, s.id ∈ stepIds R) : R.Perm steps := by
  have hRnodup : R.Nodup := hfin.nodup.of_map _
  have hRsub : R ⊆ steps := fun s hs => hfin.sub s hs
  have hsp : List.Subperm R steps := hRnodup.subperm hRsub
  have hidsp : List.Subperm (stepIds steps) (stepIds R) :=
    hnd.subperm (fun x hx => by
      obtain ⟨s, hs, rfl⟩ := List.mem_map.mp hx
      exact hall s hs)
  have hlen1 : (stepIds steps).length ≤ (stepIds R).length := hidsp.length_le
  have hlen : steps.length ≤ R.length := by
    simpa [stepIds] using hlen1
  exact hsp.perm_of_length_le hlen

theorem addStepEdges_nil_deps (sm : List (String × PipelineStep)) (sid : String)
    (D : List (String × Int)) (G : List (String × List String)) :
    addStepEdges sm sid [] D G = .ok (D, G) := rfl

theorem buildEdges_no_deps (sm : List (String × PipelineStep)) :
    ∀ (l : List PipelineStep) (D : List (String × Int)) (G : List (String × List String)),
      (∀ s ∈ l, s.dependencies = []) → buildEdges sm l D G = .ok (D, G) := by
  intro l
  induction l with
  | nil => intro D G _; rfl
  | cons s rest ih =>
    intro D G h
    have hs := h s (List.mem_cons_self _ _)
    have hrest : ∀ t ∈ rest, t.dependencies = [] := fun t ht => h t (List.mem_cons_of_mem _ ht)
    simp only [buildEdges, hs, addStepEdges_nil_deps]
    exact ih D G hrest

theorem kahnLoopF_empty_adjacency (sm : List (String × PipelineStep))
    (G : List (String × List String)) :
    ∀ (Q : List String) (fuel : Nat) (D : List (String × Int)) (R : List PipelineStep),
      Q.length ≤ fuel → (∀ x ∈ Q, (alGet G x).getD [] = []) →
      kahnLoopF sm G fuel Q D R = R ++ Q.filterMap (fun x => alGet sm x) := by
  intro Q
  induction Q with
  | nil =>
    intro fuel D R _ _
    cases fuel <;> simp [kahnLoopF]
  | cons x restQ ih =>
    intro fuel D R hf hg
    cases fuel with
    | zero =>
      exfalso
      have : (x :: restQ).length = restQ.length + 1 := rfl
      omega
    | succ fuel =>
      have hx := hg x (List.mem_cons_self _ _)
      have hrest : ∀ y ∈ restQ, (alGet G y).getD [] = [] :=
        fun y hy => hg y (List.mem_cons_of_mem _ hy)
      have hfuel : restQ.length ≤ fuel := by
        have : (x :: restQ).length = restQ.length + 1 := rfl
        omega
      rcases hsm : alGet sm x with _ | s
      · have hstep : kahnLoopF sm G (fuel + 1) (x :: restQ) D R =
            kahnLoopF sm G fuel restQ D R := by
          simp only [kahnLoopF, hsm, hx, processDependents]
        rw [hstep, ih fuel D R hfuel hrest, List.filterMap_cons_none hsm]
      · have hstep : kahnLoopF sm G (fuel + 1) (x :: restQ) D R =
            kahnLoopF sm G fuel restQ D (R ++ [s]) := by
          simp only [kahnLoopF, hsm, hx, processDependents]
        rw [hstep, ih fuel D (R ++ [s]) hfuel hrest, List.filterMap_cons_some hsm,
          List.append_assoc, List.singleton_append]

theorem filterMap_ids_self (steps : List PipelineStep) (hnd : (stepIds steps).Nodup) :
    ∀ (l : List PipelineStep), (∀ s ∈ l, s ∈ steps) →
      (stepIds l).filterMap (fun x => alGet (steps.map (fun t => (t.id, t))) x) = l := by
  intro l
  induction l with
  | nil => intro _; rfl
  | cons s rest ih =>
    intro hsub
    have hs : s ∈ steps := hsub s (List.mem_cons_self _ _)
    have hget : alGet (steps.map (fun t => (t.id, t))) s.id = some s :=
      alGet_map_pair (fun u => u) steps s hnd hs
    have hrest : ∀ t ∈ rest, t ∈ steps := fun t ht => hsub t (List.mem_cons_of_mem _ ht)
    rw [stepIds_cons, List.filterMap_cons_some hget, ih hrest]

theorem resolveDependencies_no_deps (steps : List PipelineStep)
    (hnd : (stepIds steps).Nodup) (h0 : ∀ s ∈ steps, s.dependencies = []) :
    resolveDependencies steps = .ok steps := by
  have hbm := buildMaps_eq steps hnd
  have hbe := buildEdges_no_deps (steps.map (fun t => (t.id, t))) steps
    (steps.map (fun t => (t.id, (0 : Int))))
    (steps.map (fun t => (t.id, ([] : List String)))) h0
  have hfilt : (steps.map (fun t => (t.id, (0 : Int)))).filter (fun p => p.2 == 0) =
      steps.map (fun t => (t.id, (0 : Int))) := by
    rw [List.filter_eq_self]
    intro p hp
    obtain ⟨t, _, rfl⟩ := List.mem_map.mp hp
    rfl
  have hqueue : ((steps.map (fun t => (t.id, (0 : Int)))).filter
      (fun p => p.2 == 0)).map (fun p => p.1) = stepIds steps := by
    rw [hfilt, List.map_map]
    rfl
  have hgetD : ∀ x,
      (alGet (steps.map (fun t => (t.id, ([] : List String)))) x).getD [] = [] := by
    intro x
    rcases hg : alGet (steps.map (fun t => (t.id, ([] : List String)))) x with _ | v
    · rw [hg]
      rfl
    · have hmem := alGet_mem _ x v hg
      obtain ⟨t, _, hpair⟩ := List.mem_map.mp hmem
      injection hpair with h1 h2
      subst h2
      rw [hg]
      rfl
  have hloop := kahnLoopF_empty_adjacency (steps.map (fun t => (t.id, t)))
    (steps.map (fun t => (t.id, ([] : List String))))
    (stepIds steps)
    ((stepIds steps).length + degSum (steps.map (fun t => (t.id, (0 : Int)))))
    (steps.map (fun t => (t.id, (0 : Int)))) []
    (Nat.le_add_right _ _) (fun x _ => hgetD x)
  have hres : resolveOrder steps = .ok steps := by
    simp only [resolveOrder, hbm, hbe, hqueue]
    rw [hloop, List.nil_append, filterMap_ids_self steps hnd steps (fun s hs => hs)]
  simp only [resolveDependencies, hres]
  simp

/-- C1: for every step set forming a valid DAG (some topological linear
order exists) with distinct ids, dependency resolution succeeds with a
sequence that is a permutation of the supplied steps (every step exactly
once, output length = input length), lists every step after all of its
dependencies, reduces to the supply order when there are no dependency
constraints at all (ties broken by supply order), and `run()` executes the
bodies exactly in that sequence's order, returning its ids as
`completedSteps` and `[]` as `failedSteps`. -/
theorem claim_C1_dag_resolution (lc : RunnerLifecycle) (steps : List PipelineStep)
    (hnd : (stepIds steps).Nodup) (htopo : hasTopo steps) :
    ∃ result,
      resolveDependencies steps = .ok result ∧
      result.Perm steps ∧
      result.length = steps.length ∧
      (∀ i (h : i < result.length), ∀ d ∈ (result.get ⟨i, h⟩).dependencies,
        d ∈ stepIds (result.take i)) ∧
      ((∀ s ∈ steps, s.dependencies = []) → result = steps) ∧
      ((∀ s ∈ result, ∀ cc : Ctx, ∃ c2, s.run cc = .ok c2) →
        runnerRun lc steps none =
          ((result.zip (ctxTrail result ⟨[]⟩)).flatMap
            (fun p => successPattern lc p.1 p.2.data),
           .ok ⟨result.length, stepIds result, []⟩) ∧
        bodyIds (runnerRun lc steps none).1 = stepIds result) := by
  have hdeps : depsPresent steps := depsPresent_of_hasTopo steps htopo
  obtain ⟨result, hres0, hfin⟩ := resolveOrder_final steps hnd hdeps
  have hperm : result.Perm steps := kahn_perm steps hnd result hfin
    (kahn_complete steps result hfin htopo)
  have hlen : result.length = steps.length := hperm.length_eq
  have hres : resolveDependencies steps = .ok result := by
    simp only [resolveDependencies, hres0]
    simp [hlen]
  refine ⟨result, hres, hperm, hlen, hfin.ordered, ?_, ?_⟩
  · intro h0
    have h2 := resolveDependencies_no_deps steps hnd h0
    rw [hres] at h2
    injection h2
  · intro hbodies
    have hrunEq : runnerRun lc steps none =
        ((result.zip (ctxTrail result ⟨[]⟩)).flatMap
          (fun p => successPattern lc p.1 p.2.data),
         .ok ⟨result.length, stepIds result, []⟩) := by
      have h := runLoop_success lc result.length result ⟨[]⟩ 0 [] [] hbodies
      simp [runnerRun, hres, h, Except.map]
    exact ⟨hrunEq, by rw [hrunEq]; exact bodyIds_zipTrail lc result ⟨[]⟩⟩

/-- Witness for C1: steps `[A→{}, B→{A}, C→{B}]` supplied as `[C, A, B]`
resolve to `[A, B, C]`; `run()` executes bodies in order `A, B, C` and
returns `completedSteps == ["A","B","C"]`, `failedSteps == []`. -/
theorem claim_C1_dag_resolution_witness :
    (stepIds [okStepC, okStepA, okStepB]).Nodup ∧
    hasTopo [okStepC, okStepA, okStepB] ∧
    ∃ result, resolveDependencies [okStepC, okStepA, okStepB] = .ok result ∧
      result.Perm [okStepC, okStepA, okStepB] ∧
      result = [okStepA, okStepB, okStepC] ∧
      bodyIds (runnerRun lcNone [okStepC, okStepA, okStepB] none).1 = ["A", "B", "C"] ∧
      runnerRun lcNone [okStepC, okStepA, okStepB] none =
        ([Ev.bodyRun "A" [], Ev.bodyRun "B" [], Ev.bodyRun "C" []],
         .ok ⟨3, ["A", "B", "C"], []⟩) := by
  have hnd : (stepIds [okStepC, okStepA, okStepB]).Nodup := by decide
  have htopo : hasTopo [okStepC, okStepA, okStepB] := by
    refine ⟨[okStepA, okStepB, okStepC], ?_, ?_⟩
    · exact (List.Perm.swap okStepA okStepC [okStepB]).trans
        ((List.Perm.swap okStepB okStepC []).cons okStepA)
    · decide
  obtain ⟨result, hres, hperm, hlen, hord, htie, hrun⟩ :=
    claim_C1_dag_resolution lcNone [okStepC, okStepA, okStepB] hnd htopo
  have hconc : resolveDependencies [okStepC, okStepA, okStepB] =
      .ok [okStepA, okStepB, okStepC] := rfl
  have hresult : result = [okStepA, okStepB, okStepC] := by
    rw [hconc] at hres
    injection hres with h
    exact h.symm
  have hbodies : ∀ s ∈ result, ∀ cc : Ctx, ∃ c2, s.run cc = .ok c2 := by
    rw [hresult]
    intro s hs cc
    simp only [List.mem_cons, List.not_mem_nil, or_false] at hs
    rcases hs with rfl | rfl | rfl
    · exact ⟨cc, rfl⟩
    · exact ⟨cc, rfl⟩
    · exact ⟨cc, rfl⟩
  obtain ⟨hrunEq, hbody⟩ := hrun hbodies
  refine ⟨hnd, htopo, result, hres, hperm, hresult, ?_, ?_⟩
  · rw [hbody, hresult]
    rfl
  · rw [hrunEq, hresult]
    simp [lcNone, okStepA, okStepB, okStepC, ctxTrail, nextCtx, successPattern, stepIds]

theorem buildEdges_missing (sm : List (String × PipelineStep)) :
    ∀ (pre : List PipelineStep) (s : PipelineStep) (post : List PipelineStep)
      (D : List (String × Int)) (G : List (String × List String))
      (dpre : List String) (d : String) (dsuf : List String),
      (∀ t ∈ pre, ∀ x ∈ t.dependencies, (alGet sm x).isSome) →
      (∀ t ∈ pre, (alGet D t.id).isSome) →
      (∀ x, (alGet sm x).isSome → (alGet G x).isSome) →
      s.dependencies = dpre ++ d :: dsuf →
      (∀ x ∈ dpre, (alGet sm x).isSome) →
      (alGet sm d).isSome = false →
      buildEdges sm (pre ++ s :: post) D G = .error (.missingDep d s.id) := by
  intro pre
  induction pre with
  | nil =>
    intro s post D G dpre d dsuf _ _ _ hdeps hdpre hd
    rw [List.nil_append]
    simp only [buildEdges, hdeps,
      addStepEdges_missing sm s.id dpre d dsuf D G hdpre hd]
  | cons t rest ih =>
    intro s post D G dpre d dsuf hpredeps hpreD hGsm hdeps hdpre hd
    obtain ⟨D1, G1, hrun1, _, hD1ne, hG1, hD1keys, hG1keys⟩ :=
      addStepEdges_spec sm t.id t.dependencies D G
        (hpredeps t (List.mem_cons_self _ _)) (hpreD t (List.mem_cons_self _ _)) hGsm
    have hbe : buildEdges sm ((t :: rest) ++ s :: post) D G =
        buildEdges sm (rest ++ s :: post) D1 G1 := by
      simp only [List.cons_append, buildEdges, hrun1]
      rfl
    rw [hbe]
    refine ih s post D1 G1 dpre d dsuf
      (fun t' ht' x hx => hpredeps t' (List.mem_cons_of_mem _ ht') x hx)
      (fun t' ht' => ?_) (fun x hx => ?_) hdeps hdpre hd
    · rw [alGet_isSome_mem_keys, hD1keys, ← alGet_isSome_mem_keys]
      exact hpreD t' (List.mem_cons_of_mem _ ht')
    · have hx2 := hGsm x hx
      rw [hG1 x]
      rcases hgx : alGet G x with _ | v
      · rw [hgx] at hx2
        simp at hx2
      · rfl

theorem resolveDependencies_missing (steps : List PipelineStep)
    (hnd : (stepIds steps).Nodup)
    (pre : List PipelineStep) (s : PipelineStep) (post : List PipelineStep)
    (hsplit : steps = pre ++ s :: post)
    (dpre : List String) (d : String) (dsuf : List String)
    (hdeps : s.dependencies = dpre ++ d :: dsuf)
    (hpredeps : ∀ t ∈ pre, ∀ x ∈ t.dependencies, x ∈ stepIds steps)
    (hdpre : ∀ x ∈ dpre, x ∈ stepIds steps)
    (hd : d ∉ stepIds steps) :
    resolveDependencies steps = .error (.missingDep d s.id) := by
  have hbm := buildMaps_eq steps hnd
  have hsm : ∀ x, (alGet (steps.map (fun t => (t.id, t))) x).isSome ↔
      x ∈ stepIds steps := fun x => alGet_map_pair_isSome (fun u => u) steps x
  have hbe := buildEdges_missing (steps.map (fun t => (t.id, t))) pre s post
    (steps.map (fun t => (t.id, (0 : Int)))) (steps.map (fun t => (t.id, ([] : List String))))
    dpre d dsuf
    (fun t ht x hx => (hsm x).mpr (hpredeps t ht x hx))
    (fun t ht => by
      rw [alGet_map_pair_isSome (fun _ => (0 : Int)) steps t.id]
      refine List.mem_map.mpr ⟨t, ?_, rfl⟩
      rw [hsplit]
      exact List.mem_append.mpr (Or.inl ht))
    (fun x hx => by
      rw [alGet_map_pair_isSome (fun _ => ([] : List String)) steps x]
      exact (hsm x).mp hx)
    hdeps
    (fun x hx => (hsm x).mpr (hdpre x hx))
    (Bool.eq_false_iff.mpr (fun h => hd ((hsm d).mp h)))
  rw [← hsplit] at hbe
  simp only [resolveDependencies, resolveOrder, hbm, hbe]

theorem resolveDependencies_circular (steps result : List PipelineStep)
    (hres : resolveOrder steps = .ok result) (hlen : result.length ≠ steps.length) :
    resolveDependencies steps = .error (.circular ((steps.filter
      (fun s => !(result.any (fun r => r.id == s.id)))).map (fun s => s.id))) := by
  simp [resolveDependencies, hres, hlen]

/-- C2: dependency resolution fails atomically: a dependency id absent
from the supplied set (the dependent's earlier dependencies and all steps
listed before it being well-formed) yields the missing-dependency error
naming the offending id and the dependent step id, with no acyclicity
assumption — the check precedes cycle detection; if the algorithm's
output is shorter than the input, the circular-dependency error lists the
unresolved step ids; and on any resolution error `run()`/`resume()` return
that error with an empty trace — zero step bodies executed and no partial
ordering returned. -/
theorem claim_C2_resolution_failures (steps : List PipelineStep) :
    ((stepIds steps).Nodup →
      ∀ (pre : List PipelineStep) (s : PipelineStep) (post : List PipelineStep)
        (dpre : List String) (d : String) (dsuf : List String),
        steps = pre ++ s :: post →
        s.dependencies = dpre ++ d :: dsuf →
        (∀ t ∈ pre, ∀ x ∈ t.dependencies, x ∈ stepIds steps) →
        (∀ x ∈ dpre, x ∈ stepIds steps) →
        d ∉ stepIds steps →
        resolveDependencies steps = .error (.missingDep d s.id)) ∧
    (∀ result : List PipelineStep, resolveOrder steps = .ok result →
      result.length ≠ steps.length →
      resolveDependencies steps = .error (.circular ((steps.filter
        (fun s => !(result.any (fun r => r.id == s.id)))).map (fun s => s.id)))) ∧
    (∀ e : ResolveError, resolveDependencies steps = .error e →
      (∀ (lc : RunnerLifecycle) (sid : Option String),
        runnerRun lc steps sid = ([], .error (.resolve e))) ∧
      (∀ (lc : RunnerLifecycle) (state : RunnerState),
        runnerResume lc steps state = ([], .error (.resolve e)))) := by
  refine ⟨?_, ?_, ?_⟩
  · intro hnd pre s post dpre d dsuf hsplit hdeps hpredeps hdpre hd
    exact resolveDependencies_missing steps hnd pre s post hsplit dpre d dsuf
      hdeps hpredeps hdpre hd
  · intro result hres hlen
    exact resolveDependencies_circular steps result hres hlen
  · intro e he
    constructor
    · intro lc sid
      simp [runnerRun, he]
    · intro lc state
      simp [runnerResume, he]

/-- Witness for C2: the mutual cycle `[A→{B}, B→{A}]` fails with the
circular error listing `["A","B"]` and zero bodies executed; a dangling
dependency `"X"` fails with the missing-dependency error naming `"X"` and
`"A"`, also when the set additionally contains the cycle `B↔C` (the
missing-dependency check precedes cycle detection). -/
theorem claim_C2_resolution_failures_witness :
    resolveDependencies [cycStepA, cycStepB] = .error (.circular ["A", "B"]) ∧
    resolveDependencies [danglingStepA] = .error (.missingDep "X" "A") ∧
    resolveDependencies [danglingStepA, mutStepB, mutStepC] =
      .error (.missingDep "X" "A") ∧
    runnerRun lcNone [cycStepA, cycStepB] none =
      ([], .error (.resolve (.circular ["A", "B"]))) ∧
    runnerResume lcNone [cycStepA, cycStepB] ⟨"", 0, [], [], []⟩ =
      ([], .error (.resolve (.circular ["A", "B"]))) := by
  have hcyc : resolveDependencies [cycStepA, cycStepB] = .error (.circular ["A", "B"]) :=
    ((claim_C2_resolution_failures [cycStepA, cycStepB]).2.1 [] rfl (by decide)).trans rfl
  have hmiss : resolveDependencies [danglingStepA] = .error (.missingDep "X" "A") :=
    ((claim_C2_resolution_failures [danglingStepA]).1 (by decide)
      [] danglingStepA [] [] "X" [] rfl rfl
      (fun t ht => absurd ht (List.not_mem_nil t))
      (fun x hx => absurd hx (List.not_mem_nil x))
      (by decide)).trans rfl
  have hmiss3 : resolveDependencies [danglingStepA, mutStepB, mutStepC] =
      .error (.missingDep "X" "A") :=
    ((claim_C2_resolution_failures [danglingStepA, mutStepB, mutStepC]).1 (by decide)
      [] danglingStepA [mutStepB, mutStepC] [] "X" [] rfl rfl
      (fun t ht => absurd ht (List.not_mem_nil t))
      (fun x hx => absurd hx (List.not_mem_nil x))
      (by decide)).trans rfl
  have hzero := (claim_C2_resolution_failures [cycStepA, cycStepB]).2.2
    (.circular ["A", "B"]) hcyc
  exact ⟨hcyc, hmiss, hmiss3, hzero.1 lcNone none, hzero.2 lcNone ⟨"", 0, [], [], []⟩⟩
